import Mathlib

/-!
Verification of `txjuju/version.py` (with helper semantics from
`txjuju/_utils.py`).

The module is Python 2.  Strings are modelled as `List Char`, exceptions
as `Except String`, and Python's `None`-or-string-or-int dynamic values
by small inductive types.  Every definition mirrors one function or
method of the source; comments cite the source lines.
-/

set_option maxRecDepth 10000

namespace Txjuju

/-- Model of Python strings: a list of characters. -/
abbrev Str := List Char

/-- Exceptions are identified by their message (all raised errors in the
source are `ValueError`). -/
abbrev Err := String

/-- Convert a Lean string literal into the model representation. -/
def chars (s : String) : Str := s.data

/-! ## Python string primitives used by the source -/

/-- Model of Python `s.partition(sep)` for a one-character separator:
split at the first occurrence, returning (before, found?, after).
When the separator is absent the result is `(s, false, [])`, matching
Python's `(s, "", "")`. -/
def partitionList (sep : Char) : Str → Str × Bool × Str
  | [] => ([], false, [])
  | c :: rest =>
    if c = sep then ([], true, rest)
    else
      let r := partitionList sep rest
      (c :: r.1, r.2.1, r.2.2)

/-- Helper for `rpartition`: the part before the last occurrence of
`sep`, or `none` when `sep` does not occur. -/
def rpartBefore (sep : Char) : Str → Option Str
  | [] => none
  | c :: rest =>
    match rpartBefore sep rest with
    | some pre => some (c :: pre)
    | none => if c = sep then some [] else none

/-- Model of Python `s.rpartition(sep)[0]`: the part before the last
occurrence of `sep`, and `""` when `sep` does not occur. -/
def rpartitionFst (sep : Char) (s : Str) : Str := (rpartBefore sep s).getD []

/-- Model of Python `s.startswith(pre)` (first argument is the would-be
leading segment). -/
def listStarts : Str → Str → Bool
  | [], _ => true
  | _ :: _, [] => false
  | p :: ps, c :: cs => p = c && listStarts ps cs

/-- The characters Python's `str.strip()` / `int()` remove at the ends
(space, tab, newline, carriage return, vertical tab, form feed), by
code point. -/
def isPySpace (c : Char) : Bool :=
  c.toNat = 32 ∨ c.toNat = 9 ∨ c.toNat = 10 ∨ c.toNat = 13 ∨ c.toNat = 11 ∨ c.toNat = 12

/-- Model of Python `s.strip()`: drop whitespace from both ends. -/
def pyStrip (s : Str) : Str :=
  ((s.dropWhile isPySpace).reverse.dropWhile isPySpace).reverse

/-- The numeric value of a decimal digit character (code points 48-57),
`none` otherwise. -/
def charDigit (c : Char) : Option Nat :=
  if 48 ≤ c.toNat ∧ c.toNat ≤ 57 then some (c.toNat - 48) else none

/-- Accumulate the decimal value of a digit run; `none` on the first
non-digit. -/
def digitsValAux (acc : Nat) : Str → Option Nat
  | [] => some acc
  | c :: cs =>
    match charDigit c with
    | some d => digitsValAux (acc * 10 + d) cs
    | none => none

/-- Value of a non-empty all-digit string, `none` otherwise. -/
def nonemptyDigitsVal (s : Str) : Option Nat :=
  if s = [] then none else digitsValAux 0 s

/-- The sign-and-digits part of `int(s)`, applied after stripping. -/
def pyIntCore : Str → Option Int
  | [] => none
  | c :: rest =>
    if c = '+' then (nonemptyDigitsVal rest).map Int.ofNat
    else if c = '-' then (nonemptyDigitsVal rest).map (fun m => -(Int.ofNat m))
    else (nonemptyDigitsVal (c :: rest)).map Int.ofNat

/-- Model of Python 2 `int(s)` on a string: surrounding whitespace is
ignored, an optional sign precedes a non-empty run of decimal digits;
anything else raises `ValueError`, modelled as `none`. -/
def pyInt (s : Str) : Option Int := pyIntCore (pyStrip s)

/-- Model of Python `s.lower()` (ASCII, which is all the source needs). -/
def pyLower (s : Str) : Str := s.map Char.toLower

/-- Decimal digits of `n`, most significant first, by fuel recursion. -/
def natDigitsAux : Nat → Nat → Str
  | 0, _ => []
  | fuel + 1, n =>
    if n < 10 then [Char.ofNat (48 + n)]
    else natDigitsAux fuel (n / 10) ++ [Char.ofNat (48 + n % 10)]

/-- Model of Python `str(n)` for a non-negative integer. -/
def natChars (n : Nat) : Str := natDigitsAux (n + 1) n

/-- Model of Python `str(i)` for an arbitrary integer. -/
def intStr (i : Int) : Str :=
  if i < 0 then '-' :: natChars i.natAbs else natChars i.toNat

/-! ## `txjuju/version.py`, lines 6-11: module constants -/

def WILDCARD : Str := chars "x"

def RELEASE_ALPHA : Str := chars "alpha"
def RELEASE_BETA : Str := chars "beta"
def RELEASE_CANDIDATE : Str := chars "rc"
def RELEASE_FINAL : Str := chars "final"

/-! ## Dynamic values -/

/-- The values fed to `_parse_number` by this code base: Python `None`,
a string, or an int. -/
inductive Raw
  | none
  | str (s : Str)
  | int (n : Int)
  deriving DecidableEq, Repr

/-- The values `_parse_number` classifies into and `VersionNumber`
stores: Python `None` (unset), the wildcard string `"x"`, or an int. -/
inductive Field
  | unset
  | wild
  | num (n : Int)
  deriving DecidableEq, Repr

/-- Python truthiness of a stored field (`None` falsy, `"x"` truthy,
`0` falsy, other ints truthy). -/
def Field.truthy : Field → Bool
  | Field.unset => false
  | Field.wild => true
  | Field.num n => n ≠ 0

/-- `isinstance(x, int) and x >= 0` on a stored field. -/
def Field.isNonnegInt : Field → Bool
  | Field.num n => 0 ≤ n
  | _ => false

/-- The Python value a stored field re-enters `_parse_number` as when a
namedtuple `_replace` rebuilds the instance (`None`, the string `"x"`,
or the int itself). -/
def Field.toRaw : Field → Raw
  | Field.unset => Raw.none
  | Field.wild => Raw.str WILDCARD
  | Field.num n => Raw.int n

/-- Python `"{}".format(field)` on a stored field. -/
def Field.fieldStr : Field → Str
  | Field.unset => chars "None"
  | Field.wild => WILDCARD
  | Field.num n => intStr n

/-! ## `version.py` lines 55-63: `_parse_number` -/

/-- Lines 55-63.  Beware the Python 2 idiom on line 62:
`except TypeError, ValueError` catches only `TypeError` (binding it to
the local name `ValueError`).  For the `None`/string/int inputs this
code base passes in, `int()` can only raise `ValueError`, which
therefore propagates out of `_parse_number`; the `return raw` fallback
is unreachable and has no counterpart here. -/
def _parse_number (raw : Raw) : Except Err Field :=
  match raw with
  | Raw.none => Except.ok Field.unset
  | Raw.int n => Except.ok (Field.num n)
  | Raw.str s =>
    if s = [] then Except.ok Field.unset
    else if s = chars "x" ∨ s = chars "X" ∨ s = chars "*" then Except.ok Field.wild
    else
      match pyInt s with
      | some n => Except.ok (Field.num n)
      | none => Except.error "invalid literal for int() with base 10"

/-! ## `version.py` lines 14-42: release level predicates -/

/-- Lines 14-28.  The `for`/`else` with early returns becomes structural
recursion over the candidate list; `level` is always a string here. -/
def _releaselevel_matches (level : Str) : List Str → Bool
  | [] => false
  | kind :: rest =>
    if listStarts kind level then
      match pyInt (level.drop kind.length) with
      | none => false
      | some n => decide (1 ≤ n)
    else _releaselevel_matches level rest

/-- Lines 31-36. -/
def _is_dev_releaselevel (level : Str) : Bool :=
  _releaselevel_matches level [RELEASE_ALPHA, RELEASE_BETA, RELEASE_CANDIDATE]

/-- Lines 39-42. -/
def _is_valid_releaselevel (level : Str) : Bool :=
  if level = [] ∨ level = RELEASE_FINAL then true
  else _is_dev_releaselevel level

/-! ## `version.py` lines 66-141: `VersionNumber` -/

/-- The namedtuple `VersionNumber(major, minor, micro)` (line 66). -/
structure VersionNumber where
  major : Field
  minor : Field
  micro : Field
  deriving DecidableEq, Repr

namespace VersionNumber

/-- Lines 91-112: `_validate`, an if-chain raising the first applicable
`ValueError`. -/
def _validate (v : VersionNumber) : Except Err Unit :=
  if v.major = Field.wild then
    Except.error "wildcard not supported for the major version"
  else if ¬ v.major.isNonnegInt then
    Except.error "major must be a non-negative integer"
  else if v.minor = Field.wild ∧ v.micro ≠ Field.unset then
    Except.error "got unexpected micro with wildcard minor"
  else if v.minor ≠ Field.wild ∧ ¬ v.minor.isNonnegInt then
    Except.error "minor must be a non-negative integer"
  else if v.micro ≠ Field.unset ∧ v.micro ≠ Field.wild ∧ ¬ v.micro.isNonnegInt then
    Except.error "micro must be a non-negative integer"
  else if ¬ v.major.truthy ∧ ¬ v.minor.truthy ∧ ¬ v.micro.truthy then
    Except.error "at least one of major, minor, and micro must be set"
  else Except.ok ()

/-- Lines 81-89: `__new__` runs each argument through `_parse_number`
(left to right, so the first conversion error wins), then `__init__`
validates the assembled tuple. -/
def mkRaw (a b c : Raw) : Except Err VersionNumber :=
  match _parse_number a with
  | Except.error e => Except.error e
  | Except.ok ma =>
    match _parse_number b with
    | Except.error e => Except.error e
    | Except.ok mb =>
      match _parse_number c with
      | Except.error e => Except.error e
      | Except.ok mc =>
        match (⟨ma, mb, mc⟩ : VersionNumber)._validate with
        | Except.error e => Except.error e
        | Except.ok _ => Except.ok ⟨ma, mb, mc⟩

/-- Lines 69-79: `parse`. -/
def parse (raw : Str) : Except Err VersionNumber :=
  let p1 := partitionList '.' raw
  let major := p1.1
  let p2 := partitionList '.' p1.2.2
  let minor := p2.1
  let sep := p2.2.1
  let micro := p2.2.2
  if sep ∧ micro = [] then Except.error "missing micro"
  else mkRaw (Raw.str major) (Raw.str minor) (Raw.str micro)

/-- Lines 114-117: `__str__`. -/
def toStr (v : VersionNumber) : Str :=
  match v.micro with
  | Field.unset => v.major.fieldStr ++ '.' :: v.minor.fieldStr
  | _ => v.major.fieldStr ++ '.' :: v.minor.fieldStr ++ '.' :: v.micro.fieldStr

/-- Lines 119-126: the `iswildcard` property. -/
def iswildcard (v : VersionNumber) : Bool :=
  if v.minor = Field.wild then true
  else if v.micro = Field.unset ∨ v.micro = Field.wild then true
  else false

/-- `_replace(minor=m)` (from `_utils.NamedTuple._replace`, lines 40-44):
rebuilds the tuple through `__new__`/`__init__`, re-running
`_parse_number` and `_validate` on the updated fields. -/
def replaceMinor (v : VersionNumber) (m : Field) : Except Err VersionNumber :=
  mkRaw v.major.toRaw m.toRaw v.micro.toRaw

/-- `_replace(micro=m)`, as `replaceMinor`. -/
def replaceMicro (v : VersionNumber) (m : Field) : Except Err VersionNumber :=
  mkRaw v.major.toRaw v.minor.toRaw m.toRaw

/-- Lines 135-141: `_apply`.  Each `_replace` may raise, which
propagates out of `match`. -/
def _apply (self version : VersionNumber) : Except Err VersionNumber :=
  match (if self.minor = Field.wild then self.replaceMinor version.minor
         else Except.ok self) with
  | Except.error e => Except.error e
  | Except.ok applied =>
    if applied.micro = Field.unset ∨ applied.micro = Field.wild then
      applied.replaceMicro version.micro
    else Except.ok applied

/-- Lines 128-133: `match` on a candidate that is already a
`VersionNumber` (the `isinstance` coercion branch is skipped).  Named
`doesMatch` because `match` and `matches` are reserved in Lean. -/
def doesMatch (self version : VersionNumber) : Except Err Bool :=
  match self._apply version with
  | Except.error e => Except.error e
  | Except.ok expected => Except.ok (version = expected)

end VersionNumber

/-! ## `version.py` lines 144-218: `Version` -/

/-- The namedtuple `Version(number, releaselevel, series, arch)`
(line 144).  `_validate` raises `"missing number"` when `number` is
`None` before any other use of it, so the validated structure carries
the number directly; the `none` case is handled in `make`. -/
structure Version where
  number : VersionNumber
  releaselevel : Str
  series : Option Str
  arch : Option Str
  deriving DecidableEq, Repr

namespace Version

/-- Line 175/176: `str(x).lower() if x else None` on an optional
string. -/
def normTruthyLower : Option Str → Option Str
  | Option.none => Option.none
  | Option.some s => if s = [] then Option.none else Option.some (pyLower s)

/-- Line 174: `releaselevel.lower() if releaselevel else RELEASE_FINAL`. -/
def normLevel : Option Str → Str
  | Option.none => RELEASE_FINAL
  | Option.some s => if s = [] then RELEASE_FINAL else pyLower s

/-- Lines 184-206: `_validate` on the normalized tuple.  The leading
`if not self.number` check is handled in `make`; the remaining checks
are this if-chain. -/
def _validate (v : Version) : Except Err Unit :=
  if v.number.iswildcard then
    Except.error "wildcard versions not supported"
  else if v.releaselevel = [] then
    Except.error "missing releaselevel"
  else if ¬ _is_valid_releaselevel v.releaselevel then
    Except.error "invalid releaselevel"
  else if v.series.isSome ∧ v.arch = Option.none then
    Except.error "missing arch (have series)"
  else if v.arch.isSome ∧ v.series = Option.none then
    Except.error "missing series (have arch)"
  else Except.ok ()

/-- Lines 171-182: `__new__` + `__init__` for a `number` argument that
is already a `VersionNumber` or `None` (line 172's string-coercion
branch does not fire for these).  `releaselevel` defaults to `"final"`
when falsy and is lower-cased otherwise; `series`/`arch` are lower-cased
when truthy, else `None`.  A `None` number fails `_validate`'s first
check (line 185-186). -/
def make (number : Option VersionNumber) (releaselevel series arch : Option Str) :
    Except Err Version :=
  match number with
  | Option.none => Except.error "missing number"
  | Option.some num =>
    let v : Version :=
      ⟨num, normLevel releaselevel, normTruthyLower series, normTruthyLower arch⟩
    match v._validate with
    | Except.error e => Except.error e
    | Except.ok _ => Except.ok v

/-- Lines 159-166: resolution of the dash-separated tail (everything
after the first `-`) into `(level, series, arch)`.  When the remainder
after `level` does not split again, the single token is re-interpreted:
it becomes `arch`, the extracted `level` becomes `series`, and `level`
resets to `"final"`. -/
def parseTail (raw : Str) : Str × Option Str × Option Str :=
  let p1 := partitionList '-' raw
  let level := p1.1
  if p1.2.1 then
    let p2 := partitionList '-' p1.2.2
    if p2.2.1 then (level, Option.some p2.1, Option.some p2.2.2)
    else (RELEASE_FINAL, Option.some level, Option.some p2.1)
  else (level, Option.none, Option.none)

/-- Lines 167-168: force an unset micro to `0` when the resolved level
is a dev tag; the `_replace` re-validates and may raise. -/
def parseForce (num : VersionNumber) (level : Str) : Except Err VersionNumber :=
  if num.micro = Field.unset ∧ _is_dev_releaselevel level then
    num.replaceMicro (Field.num 0)
  else Except.ok num

/-- Lines 147-169: `parse`. -/
def parse (raw : Str) : Except Err Version :=
  let p1 := partitionList '-' raw
  match VersionNumber.parse p1.1 with
  | Except.error e => Except.error e
  | Except.ok num =>
    if ¬ p1.2.1 then make (Option.some num) Option.none Option.none Option.none
    else
      let t := parseTail p1.2.2
      match parseForce num t.1 with
      | Except.error e => Except.error e
      | Except.ok num => make (Option.some num) (Option.some t.1) t.2.1 t.2.2

/-- Lines 208-218: `__str__`. -/
def toStr (v : Version) : Str :=
  let ver := v.number.toStr
  let ver :=
    if v.releaselevel ≠ RELEASE_FINAL then
      (if v.number.micro = Field.num 0 then rpartitionFst '.' ver else ver)
        ++ '-' :: v.releaselevel
    else ver
  let ver := match v.series with
    | Option.some s => ver ++ '-' :: s
    | Option.none => ver
  match v.arch with
  | Option.some a => ver ++ '-' :: a
  | Option.none => ver

end Version

/-! ## Notions used to state the claims -/

/-- The string consists only of Python whitespace characters. -/
def wsOnly (w : Str) : Bool := w.all isPySpace

/-- The string is one of the literal wildcard tokens `_parse_number`
recognizes. -/
def wildTok (t : Str) : Bool := t = chars "x" || t = chars "X" || t = chars "*"

/-- The dot-separated token that trailing characters attach to: the part
of the string after its last `.` (the whole string when it has no dot). -/
def lastToken (s : Str) : Str := (s.reverse.takeWhile (fun c => c ≠ '.')).reverse

/-- No dash occurs in the optional string. -/
def noDash : Option Str → Bool
  | Option.none => true
  | Option.some s => decide ('-' ∉ s)

/-! ## Generic lemmas: characters -/

theorem toNat_ofNat_valid (n : Nat) (h : n < 55296) : (Char.ofNat n).toNat = n := by
  simp [Char.ofNat, Nat.isValidChar, h, Char.ofNatAux, Char.toNat, UInt32.toNat,
    BitVec.toNat_ofNatLt]

theorem toLower_idem (c : Char) : c.toLower.toLower = c.toLower := by
  unfold Char.toLower
  by_cases h : c.toNat ≥ 65 ∧ c.toNat ≤ 90
  · rw [if_pos h]
    have h2 : (Char.ofNat (c.toNat + 32)).toNat = c.toNat + 32 :=
      toNat_ofNat_valid _ (by omega)
    rw [if_neg (by omega)]
  · rw [if_neg h, if_neg h]

theorem pyLower_idem (s : Str) : pyLower (pyLower s) = pyLower s := by
  unfold pyLower
  rw [List.map_map]
  exact List.map_congr_left fun c _ => toLower_idem c

theorem charDigit_eq_some {c : Char} {d : Nat}
    (h : charDigit c = some d) : 48 ≤ c.toNat ∧ c.toNat ≤ 57 := by
  unfold charDigit at h
  by_cases hb : 48 ≤ c.toNat ∧ c.toNat ≤ 57
  · exact hb
  · rw [if_neg hb] at h; exact absurd h (by simp)

theorem charDigit_isSome {c : Char}
    (h : (charDigit c).isSome) : 48 ≤ c.toNat ∧ c.toNat ≤ 57 := by
  rcases Option.isSome_iff_exists.mp h with ⟨d, hd⟩
  exact charDigit_eq_some hd

theorem digit_not_space {c : Char} (h : (charDigit c).isSome) : isPySpace c = false := by
  have hb := charDigit_isSome h
  simp [isPySpace]
  omega

/-! ## Generic lemmas: dropWhile, takeWhile, pyStrip -/

theorem dropWhile_all {p : Char → Bool} {s : Str}
    (h : ∀ c ∈ s, p c = true) : s.dropWhile p = [] := by
  induction s with
  | nil => rfl
  | cons c rest ih =>
    rw [List.dropWhile_cons, if_pos (h c (by simp))]
    exact ih fun x hx => h x (by simp [hx])

theorem dropWhile_sat_append {p : Char → Bool} {w : Str} (s : Str)
    (h : ∀ c ∈ w, p c = true) : (w ++ s).dropWhile p = s.dropWhile p := by
  induction w with
  | nil => rfl
  | cons c rest ih =>
    rw [List.cons_append, List.dropWhile_cons, if_pos (h c (by simp))]
    exact ih fun x hx => h x (by simp [hx])

theorem dropWhile_no_sat {p : Char → Bool} {s : Str}
    (h : ∀ c ∈ s, p c = false) : s.dropWhile p = s := by
  cases s with
  | nil => rfl
  | cons c rest =>
    rw [List.dropWhile_cons, if_neg (by simp [h c (by simp)])]

theorem dropWhile_append_of_ne_nil {p : Char → Bool} {u : Str} (w : Str)
    (h : u.dropWhile p ≠ []) : (u ++ w).dropWhile p = u.dropWhile p ++ w := by
  induction u with
  | nil => exact absurd rfl h
  | cons c rest ih =>
    rw [List.cons_append]
    simp only [List.dropWhile_cons] at h ⊢
    by_cases hc : p c = true
    · rw [if_pos hc] at h
      rw [if_pos hc, if_pos hc]
      exact ih h
    · rw [if_neg hc, if_neg hc, List.cons_append]

theorem dropWhile_nil_all {p : Char → Bool} {s : Str}
    (h : s.dropWhile p = []) : ∀ c ∈ s, p c = true := by
  induction s with
  | nil => simp
  | cons c rest ih =>
    rw [List.dropWhile_cons] at h
    by_cases hc : p c = true
    · rw [if_pos hc] at h
      intro x hx
      rcases List.mem_cons.mp hx with rfl | hx
      · exact hc
      · exact ih h x hx
    · rw [if_neg hc] at h
      exact absurd h (by simp)

theorem mem_dropWhile {p : Char → Bool} {s : Str} {c : Char}
    (hc : c ∈ s) (hp : p c = false) : c ∈ s.dropWhile p := by
  induction s with
  | nil => exact absurd hc (by simp)
  | cons x rest ih =>
    rw [List.dropWhile_cons]
    by_cases hx : p x = true
    · rw [if_pos hx]
      rcases List.mem_cons.mp hc with rfl | hm
      · rw [hp] at hx; exact absurd hx (by simp)
      · exact ih hm
    · rw [if_neg hx]; exact hc

theorem wsOnly_mem {w : Str} (h : wsOnly w = true) : ∀ c ∈ w, isPySpace c = true :=
  fun c hc => List.all_eq_true.mp h c hc

theorem wsOnly_reverse {w : Str} (h : wsOnly w = true) : wsOnly w.reverse = true :=
  List.all_eq_true.mpr fun c hc => wsOnly_mem h c (List.mem_reverse.mp hc)

theorem pyStrip_ws_left {w : Str} (s : Str) (hw : wsOnly w = true) :
    pyStrip (w ++ s) = pyStrip s := by
  unfold pyStrip
  rw [dropWhile_sat_append s (wsOnly_mem hw)]

theorem pyStrip_ws_right {w : Str} (s : Str) (hw : wsOnly w = true) :
    pyStrip (s ++ w) = pyStrip s := by
  unfold pyStrip
  by_cases h : s.dropWhile isPySpace = []
  · have hall : ∀ c ∈ s ++ w, isPySpace c = true := by
      intro c hc
      rcases List.mem_append.mp hc with hc | hc
      · exact dropWhile_nil_all h c hc
      · exact wsOnly_mem hw c hc
    rw [h, dropWhile_all hall]
  · rw [dropWhile_append_of_ne_nil w h, List.reverse_append,
      dropWhile_sat_append _ (wsOnly_mem (wsOnly_reverse hw))]

theorem pyStrip_no_space {s : Str}
    (h : ∀ c ∈ s, isPySpace c = false) : pyStrip s = s := by
  unfold pyStrip
  rw [dropWhile_no_sat h, dropWhile_no_sat (by
    intro c hc; exact h c (List.mem_reverse.mp hc)), List.reverse_reverse]

theorem mem_pyStrip {s : Str} {c : Char}
    (hc : c ∈ s) (hns : isPySpace c = false) : c ∈ pyStrip s := by
  unfold pyStrip
  rw [List.mem_reverse]
  exact mem_dropWhile (List.mem_reverse.mpr (mem_dropWhile hc hns)) hns

theorem pyInt_ws_left {w : Str} (s : Str) (hw : wsOnly w = true) :
    pyInt (w ++ s) = pyInt s := by
  unfold pyInt
  rw [pyStrip_ws_left s hw]

theorem pyInt_ws_right {w : Str} (s : Str) (hw : wsOnly w = true) :
    pyInt (s ++ w) = pyInt s := by
  unfold pyInt
  rw [pyStrip_ws_right s hw]

/-! ## Step equations for the recursive string functions -/

theorem partitionList_nil (sep : Char) : partitionList sep [] = ([], false, []) := rfl

theorem partitionList_cons (sep c : Char) (rest : Str) :
    partitionList sep (c :: rest)
      = if c = sep then ([], true, rest)
        else (c :: (partitionList sep rest).1,
              (partitionList sep rest).2.1, (partitionList sep rest).2.2) := rfl

theorem rpartBefore_cons (sep c : Char) (rest : Str) :
    rpartBefore sep (c :: rest)
      = match rpartBefore sep rest with
        | some pre => some (c :: pre)
        | none => if c = sep then some [] else none := rfl

theorem digitsValAux_cons_digit {c : Char} {d : Nat} (acc : Nat) (cs : Str)
    (hx : charDigit c = some d) :
    digitsValAux acc (c :: cs) = digitsValAux (acc * 10 + d) cs := by
  simp [digitsValAux, hx]

theorem digitsValAux_cons_none {c : Char} (acc : Nat) (cs : Str)
    (hx : charDigit c = none) :
    digitsValAux acc (c :: cs) = none := by
  simp [digitsValAux, hx]

theorem pyIntCore_cons (c : Char) (rest : Str) :
    pyIntCore (c :: rest)
      = if c = '+' then (nonemptyDigitsVal rest).map Int.ofNat
        else if c = '-' then (nonemptyDigitsVal rest).map (fun m => -(Int.ofNat m))
        else (nonemptyDigitsVal (c :: rest)).map Int.ofNat := rfl

/-! ## Generic lemmas: decimal digits and printed numbers -/

theorem digitsValAux_append (acc : Nat) (xs ys : Str) :
    digitsValAux acc (xs ++ ys)
      = (digitsValAux acc xs).bind fun m => digitsValAux m ys := by
  induction xs generalizing acc with
  | nil => rfl
  | cons c rest ih =>
    rw [List.cons_append]
    cases hx : charDigit c with
    | none => rw [digitsValAux_cons_none _ _ hx, digitsValAux_cons_none _ _ hx]; rfl
    | some d => rw [digitsValAux_cons_digit _ _ hx, digitsValAux_cons_digit _ _ hx, ih]

theorem digitsValAux_some_mem {acc m : Nat} {s : Str} {c : Char}
    (h : digitsValAux acc s = some m) (hc : c ∈ s) : (charDigit c).isSome := by
  induction s generalizing acc with
  | nil => exact absurd hc (by simp)
  | cons x rest ih =>
    cases hx : charDigit x with
    | none => rw [digitsValAux_cons_none _ _ hx] at h; exact absurd h (by simp)
    | some d =>
      rw [digitsValAux_cons_digit _ _ hx] at h
      rcases List.mem_cons.mp hc with rfl | hm
      · simp [hx]
      · exact ih h hm

theorem charDigit_ofNat {d : Nat} (h : d < 10) :
    charDigit (Char.ofNat (48 + d)) = some d := by
  unfold charDigit
  rw [toNat_ofNat_valid _ (by omega), if_pos (by omega)]
  congr 1
  omega

theorem natDigitsAux_digits :
    ∀ fuel n c, c ∈ natDigitsAux fuel n → (charDigit c).isSome := by
  intro fuel
  induction fuel with
  | zero => intro n c hc; exact absurd hc (by simp [natDigitsAux])
  | succ f ih =>
    intro n c hc
    unfold natDigitsAux at hc
    by_cases hn : n < 10
    · rw [if_pos hn] at hc
      rcases List.mem_singleton.mp hc with rfl
      simp [charDigit_ofNat hn]
    · rw [if_neg hn] at hc
      rcases List.mem_append.mp hc with hm | hm
      · exact ih _ c hm
      · rcases List.mem_singleton.mp hm with rfl
        simp [charDigit_ofNat (Nat.mod_lt n (by omega))]

theorem natDigitsAux_ne_nil {fuel n : Nat} (h : 0 < fuel) :
    natDigitsAux fuel n ≠ [] := by
  cases fuel with
  | zero => omega
  | succ f =>
    unfold natDigitsAux
    by_cases hn : n < 10
    · rw [if_pos hn]; simp
    · rw [if_neg hn]; simp

theorem natDigitsAux_spec :
    ∀ fuel n acc, n < fuel →
      digitsValAux acc (natDigitsAux fuel n)
        = some (acc * 10 ^ (natDigitsAux fuel n).length + n) := by
  intro fuel
  induction fuel with
  | zero => intro n acc h; omega
  | succ f ih =>
    intro n acc h
    unfold natDigitsAux
    by_cases hn : n < 10
    · rw [if_pos hn,
        digitsValAux_cons_digit _ _ (charDigit_ofNat hn)]
      simp [digitsValAux]
    · rw [if_neg hn]
      have hdiv : n / 10 < f := by
        have h1 : n / 10 < n := Nat.div_lt_self (by omega) (by omega)
        omega
      have hmod := charDigit_ofNat (Nat.mod_lt n (show 0 < 10 by omega))
      rw [digitsValAux_append, ih (n / 10) acc hdiv, Option.some_bind,
        digitsValAux_cons_digit _ _ hmod]
      simp only [digitsValAux, List.length_append, List.length_singleton, pow_succ]
      congr 1
      have hassoc : acc * (10 ^ (natDigitsAux f (n / 10)).length * 10)
          = acc * 10 ^ (natDigitsAux f (n / 10)).length * 10 := by ring
      rw [hassoc]
      generalize acc * 10 ^ (natDigitsAux f (n / 10)).length = K
      omega

theorem natChars_digits {n : Nat} {c : Char}
    (hc : c ∈ natChars n) : (charDigit c).isSome :=
  natDigitsAux_digits _ _ _ hc

theorem natChars_ne_nil (n : Nat) : natChars n ≠ [] :=
  natDigitsAux_ne_nil (by omega)

theorem digitsValAux_natChars (n : Nat) : digitsValAux 0 (natChars n) = some n := by
  have h := natDigitsAux_spec (n + 1) n 0 (by omega)
  unfold natChars
  rw [h]
  simp

theorem not_mem_natChars {n : Nat} {c : Char}
    (h : ¬ (48 ≤ c.toNat ∧ c.toNat ≤ 57)) : c ∉ natChars n := by
  intro hc
  exact h (charDigit_isSome (natChars_digits hc))

theorem pyInt_natChars (n : Nat) : pyInt (natChars n) = some (n : Int) := by
  have hstrip : pyStrip (natChars n) = natChars n :=
    pyStrip_no_space fun c hc => digit_not_space (natChars_digits hc)
  rcases List.exists_cons_of_ne_nil (natChars_ne_nil n) with ⟨c, rest, hs⟩
  have hcd : (charDigit c).isSome := natChars_digits (by rw [hs]; simp)
  have hb := charDigit_isSome hcd
  unfold pyInt
  rw [hstrip, hs, pyIntCore_cons]
  have hplus : ¬ c = '+' := by
    intro rfl_h
    rw [rfl_h] at hb
    simp at hb
  have hminus : ¬ c = '-' := by
    intro rfl_h
    rw [rfl_h] at hb
    simp at hb
  rw [if_neg hplus, if_neg hminus]
  unfold nonemptyDigitsVal
  rw [if_neg (by simp), ← hs, digitsValAux_natChars]
  rfl

theorem intStr_nonneg {n : Int} (h : 0 ≤ n) : intStr n = natChars n.toNat := by
  unfold intStr
  rw [if_neg (by omega)]

theorem pyInt_intStr {n : Int} (h : 0 ≤ n) : pyInt (intStr n) = some n := by
  rw [intStr_nonneg h, pyInt_natChars]
  congr 1
  omega

/-! ## Generic lemmas: partition, rpartition, startswith, lastToken -/

theorem partition_not_mem {sep : Char} {s : Str} (h : sep ∉ s) :
    partitionList sep s = (s, false, []) := by
  induction s with
  | nil => rfl
  | cons c rest ih =>
    rw [partitionList_cons,
      if_neg (by intro rfl_h; exact h (by rw [rfl_h]; simp)),
      ih (fun hm => h (by simp [hm]))]

theorem partition_append_left {sep : Char} {x : Str} (s : Str) (h : sep ∉ x) :
    partitionList sep (x ++ s)
      = (x ++ (partitionList sep s).1,
         (partitionList sep s).2.1, (partitionList sep s).2.2) := by
  induction x with
  | nil => simp
  | cons c rest ih =>
    rw [List.cons_append, partitionList_cons,
      if_neg (by intro rfl_h; exact h (by rw [rfl_h]; simp)),
      ih (fun hm => h (by simp [hm]))]
    simp

theorem partition_split {sep : Char} {x : Str} (y : Str) (h : sep ∉ x) :
    partitionList sep (x ++ sep :: y) = (x, true, y) := by
  rw [partition_append_left _ h, partitionList_cons, if_pos rfl]
  simp

theorem partition_found {sep : Char} {s pre post : Str}
    (h : partitionList sep s = (pre, true, post)) :
    s = pre ++ sep :: post ∧ sep ∉ pre := by
  induction s generalizing pre with
  | nil =>
    rw [partitionList_nil] at h
    exact absurd h (by simp)
  | cons c rest ih =>
    rw [partitionList_cons] at h
    by_cases hc : c = sep
    · rw [if_pos hc] at h
      rcases h
      exact ⟨by rw [hc]; rfl, by simp⟩
    · rw [if_neg hc] at h
      rcases hp : partitionList sep rest with ⟨pre', found', post'⟩
      rw [hp] at h
      rcases h
      rcases ih hp with ⟨h1, h2⟩
      constructor
      · rw [h1]; rfl
      · intro hm
        rcases List.mem_cons.mp hm with rfl | hm
        · exact hc rfl
        · exact h2 hm

theorem partition_not_found {sep : Char} {s pre post : Str}
    (h : partitionList sep s = (pre, false, post)) :
    pre = s ∧ post = [] ∧ sep ∉ s := by
  induction s generalizing pre with
  | nil =>
    rw [partitionList_nil] at h
    rcases h
    exact ⟨rfl, rfl, by simp⟩
  | cons c rest ih =>
    rw [partitionList_cons] at h
    by_cases hc : c = sep
    · rw [if_pos hc] at h
      exact absurd h (by simp)
    · rw [if_neg hc] at h
      rcases hp : partitionList sep rest with ⟨pre', found', post'⟩
      rw [hp] at h
      rcases h
      rcases ih hp with ⟨h1, h2, h3⟩
      refine ⟨by rw [h1], h2, ?_⟩
      intro hm
      rcases List.mem_cons.mp hm with rfl | hm
      · exact hc rfl
      · exact h3 hm

theorem rpartBefore_not_mem {sep : Char} {t : Str} (h : sep ∉ t) :
    rpartBefore sep t = none := by
  induction t with
  | nil => rfl
  | cons c rest ih =>
    rw [rpartBefore_cons, ih (fun hm => h (by simp [hm]))]
    rw [if_neg (by intro rfl_h; exact h (by rw [rfl_h]; simp))]

theorem rpartBefore_append {sep : Char} {t : Str} (x : Str) (h : sep ∉ t) :
    rpartBefore sep (x ++ sep :: t) = some x := by
  induction x with
  | nil =>
    rw [List.nil_append, rpartBefore_cons, rpartBefore_not_mem h, if_pos rfl]
  | cons c rest ih =>
    rw [List.cons_append, rpartBefore_cons, ih]

theorem rpartitionFst_append {sep : Char} {t : Str} (x : Str) (h : sep ∉ t) :
    rpartitionFst sep (x ++ sep :: t) = x := by
  unfold rpartitionFst
  rw [rpartBefore_append x h]
  rfl

theorem listStarts_append (p t : Str) : listStarts p (p ++ t) = true := by
  induction p with
  | nil => rfl
  | cons c rest ih =>
    rw [List.cons_append]
    unfold listStarts
    simp [ih]

theorem listStarts_elim {p s : Str} (h : listStarts p s = true) :
    ∃ t, s = p ++ t := by
  induction p generalizing s with
  | nil => exact ⟨s, rfl⟩
  | cons c rest ih =>
    cases s with
    | nil => exact absurd h (by simp [listStarts])
    | cons x xs =>
      have h' : c = x ∧ listStarts rest xs = true := by
        simpa [listStarts] using h
      rcases ih h'.2 with ⟨t, ht⟩
      exact ⟨t, by rw [ht, List.cons_append, h'.1]⟩

theorem takeWhile_sat_append {p : Char → Bool} {a : Str} {b : Char} (c : Str)
    (ha : ∀ x ∈ a, p x = true) (hb : p b = false) :
    (a ++ b :: c).takeWhile p = a := by
  induction a with
  | nil => simp [List.takeWhile_cons, hb]
  | cons x rest ih =>
    rw [List.cons_append, List.takeWhile_cons, if_pos (ha x (by simp))]
    rw [ih fun y hy => ha y (by simp [hy])]

theorem lastToken_append {t : Str} (x : Str) (h : '.' ∉ t) :
    lastToken (x ++ '.' :: t) = t := by
  unfold lastToken
  rw [List.reverse_append, List.reverse_cons, List.append_assoc, List.singleton_append,
    takeWhile_sat_append _ (by
      intro c hc
      simp only [decide_eq_true_iff]
      intro rfl_h
      exact h (by rw [← rfl_h]; exact List.mem_reverse.mp hc)) (by simp),
    List.reverse_reverse]

theorem lastToken_no_dot {s : Str} (h : '.' ∉ s) : lastToken s = s := by
  unfold lastToken
  rw [List.takeWhile_eq_self_iff.mpr (by
    intro c hc
    simp only [decide_eq_true_iff]
    intro rfl_h
    exact h (by rw [← rfl_h]; exact List.mem_reverse.mp hc)), List.reverse_reverse]

/-! ## Model-level lemmas: `_parse_number` -/

theorem parse_number_nil : _parse_number (Raw.str []) = Except.ok Field.unset := rfl

theorem parse_number_str (s : Str) :
    _parse_number (Raw.str s)
      = if s = [] then Except.ok Field.unset
        else if s = chars "x" ∨ s = chars "X" ∨ s = chars "*" then Except.ok Field.wild
        else match pyInt s with
          | some n => Except.ok (Field.num n)
          | none => Except.error "invalid literal for int() with base 10" := rfl

theorem parse_number_toRaw (f : Field) : _parse_number f.toRaw = Except.ok f := by
  cases f <;> rfl

theorem parse_number_pyInt {s : Str} {n : Int}
    (hne : s ≠ []) (hw : ¬ (s = chars "x" ∨ s = chars "X" ∨ s = chars "*"))
    (hp : pyInt s = some n) :
    _parse_number (Raw.str s) = Except.ok (Field.num n) := by
  rw [parse_number_str, if_neg hne, if_neg hw, hp]

theorem parse_number_pyInt_none {s : Str}
    (hne : s ≠ []) (hw : ¬ (s = chars "x" ∨ s = chars "X" ∨ s = chars "*"))
    (hp : pyInt s = none) :
    _parse_number (Raw.str s)
      = Except.error "invalid literal for int() with base 10" := by
  rw [parse_number_str, if_neg hne, if_neg hw, hp]

theorem pyInt_wild {s : Str} (hw : s = chars "x" ∨ s = chars "X" ∨ s = chars "*") :
    pyInt s = none := by
  rcases hw with rfl | rfl | rfl <;> rfl

/-- Inversion: the four ways `_parse_number` can succeed on a string. -/
theorem parse_number_str_ok {s : Str} {f : Field}
    (h : _parse_number (Raw.str s) = Except.ok f) :
    (s = [] ∧ f = Field.unset)
    ∨ ((s = chars "x" ∨ s = chars "X" ∨ s = chars "*") ∧ f = Field.wild)
    ∨ (∃ n, pyInt s = some n ∧ f = Field.num n) := by
  rw [parse_number_str] at h
  by_cases h1 : s = []
  · rw [if_pos h1] at h
    rcases h
    exact Or.inl ⟨h1, rfl⟩
  · rw [if_neg h1] at h
    by_cases h2 : s = chars "x" ∨ s = chars "X" ∨ s = chars "*"
    · rw [if_pos h2] at h
      rcases h
      exact Or.inr (Or.inl ⟨h2, rfl⟩)
    · rw [if_neg h2] at h
      cases hp : pyInt s with
      | none => rw [hp] at h; exact absurd h (by simp)
      | some n =>
        rw [hp] at h
        rcases h
        exact Or.inr (Or.inr ⟨n, rfl, rfl⟩)

theorem parse_number_natChars (m : Nat) :
    _parse_number (Raw.str (natChars m)) = Except.ok (Field.num m) := by
  have hdig : ∀ (w : Str), w = natChars m →
      ¬ (w = chars "x" ∨ w = chars "X" ∨ w = chars "*") := by
    intro w hw hcase
    have hx : ∃ c, c ∈ w ∧ ¬ (48 ≤ c.toNat ∧ c.toNat ≤ 57) := by
      rcases hcase with rfl | rfl | rfl
      · exact ⟨'x', by simp [chars], by decide⟩
      · exact ⟨'X', by simp [chars], by decide⟩
      · exact ⟨'*', by simp [chars], by decide⟩
    rcases hx with ⟨c, hc, hb⟩
    rw [hw] at hc
    exact hb (charDigit_isSome (natChars_digits hc))
  exact parse_number_pyInt (natChars_ne_nil m) (hdig _ rfl) (pyInt_natChars m)

theorem parse_number_fieldStr_num {n : Int} (h : 0 ≤ n) :
    _parse_number (Raw.str (Field.num n).fieldStr) = Except.ok (Field.num n) := by
  have : (Field.num n).fieldStr = natChars n.toNat := intStr_nonneg h
  rw [this, parse_number_natChars]
  congr 2
  omega

/-- A whitespace-only, non-empty token: `int()` fails on it. -/
theorem parse_number_ws {w : Str} (hne : w ≠ []) (hw : wsOnly w = true) :
    _parse_number (Raw.str w)
      = Except.error "invalid literal for int() with base 10" := by
  have hnw : ¬ (w = chars "x" ∨ w = chars "X" ∨ w = chars "*") := by
    rintro (rfl | rfl | rfl)
    · exact absurd (wsOnly_mem hw 'x' (by simp [chars])) (by decide)
    · exact absurd (wsOnly_mem hw 'X' (by simp [chars])) (by decide)
    · exact absurd (wsOnly_mem hw '*' (by simp [chars])) (by decide)
  refine parse_number_pyInt_none hne hnw ?_
  unfold pyInt
  rw [show pyStrip w = [] from ?_]
  · rfl
  · unfold pyStrip
    rw [dropWhile_all (wsOnly_mem hw)]
    rfl

/-- Stripping a left whitespace pad off a token does not change how
`_parse_number` succeeds. -/
theorem parse_number_unpad_left {w t : Str} {f : Field} (hw : wsOnly w = true)
    (h : _parse_number (Raw.str (w ++ t)) = Except.ok f) :
    _parse_number (Raw.str t) = Except.ok f := by
  by_cases hwnil : w = []
  · rw [hwnil] at h
    simpa using h
  · rcases parse_number_str_ok h with ⟨h1, _⟩ | ⟨h1, rfl⟩ | ⟨n, hp, rfl⟩
    · exact absurd (List.append_eq_nil.mp h1).1 hwnil
    · have := pyInt_wild h1
      rw [pyInt_ws_left t hw] at this
      rcases h1 with h1 | h1 | h1 <;>
      · exfalso
        rcases List.exists_cons_of_ne_nil hwnil with ⟨c, rest, rfl⟩
        have hcw := wsOnly_mem hw c (by simp)
        have : c ∈ chars "x" ∨ c ∈ chars "X" ∨ c ∈ chars "*" := by
          first
          | exact Or.inl (by rw [← h1]; simp)
          | exact Or.inr (Or.inl (by rw [← h1]; simp))
          | exact Or.inr (Or.inr (by rw [← h1]; simp))
        rcases this with hm | hm | hm <;>
          (simp [chars] at hm; rw [hm] at hcw; exact absurd hcw (by decide))
    · rw [pyInt_ws_left t hw] at hp
      have htne : t ≠ [] := by
        rintro rfl
        rw [show pyInt [] = none from rfl] at hp
        exact absurd hp (by simp)
      have htw : ¬ (t = chars "x" ∨ t = chars "X" ∨ t = chars "*") := by
        intro hcase
        rw [pyInt_wild hcase] at hp
        exact absurd hp (by simp)
      exact parse_number_pyInt htne htw hp

/-- Stripping a right whitespace pad off a token does not change how
`_parse_number` succeeds. -/
theorem parse_number_unpad_right {w t : Str} {f : Field} (hw : wsOnly w = true)
    (h : _parse_number (Raw.str (t ++ w)) = Except.ok f) :
    _parse_number (Raw.str t) = Except.ok f := by
  by_cases hwnil : w = []
  · rw [hwnil] at h
    simpa using h
  · rcases parse_number_str_ok h with ⟨h1, _⟩ | ⟨h1, rfl⟩ | ⟨n, hp, rfl⟩
    · exact absurd (List.append_eq_nil.mp h1).2 hwnil
    · have := pyInt_wild h1
      rw [pyInt_ws_right t hw] at this
      rcases h1 with h1 | h1 | h1 <;>
      · exfalso
        rcases List.exists_cons_of_ne_nil hwnil with ⟨c, rest, hcw'⟩
        have hcw := wsOnly_mem hw c (by rw [hcw']; simp)
        have hmem : c ∈ t ++ w := by rw [hcw']; simp
        rw [h1] at hmem
        simp [chars] at hmem
        rw [hmem] at hcw
        exact absurd hcw (by decide)
    · rw [pyInt_ws_right t hw] at hp
      have htne : t ≠ [] := by
        rintro rfl
        rw [show pyInt [] = none from rfl] at hp
        exact absurd hp (by simp)
      have htw : ¬ (t = chars "x" ∨ t = chars "X" ∨ t = chars "*") := by
        intro hcase
        rw [pyInt_wild hcase] at hp
        exact absurd hp (by simp)
      exact parse_number_pyInt htne htw hp

/-- Padding a numeric token with whitespace on the left preserves its
parse. -/
theorem parse_number_pad_left {w t : Str} {n : Int} (hw : wsOnly w = true)
    (h : _parse_number (Raw.str t) = Except.ok (Field.num n)) :
    _parse_number (Raw.str (w ++ t)) = Except.ok (Field.num n) := by
  rcases parse_number_str_ok h with ⟨_, h2⟩ | ⟨_, h2⟩ | ⟨m, hp, hm⟩
  · exact absurd h2 (by simp)
  · exact absurd h2 (by simp)
  · have hnm : n = m := by injection hm
    subst hnm
    have hp' : pyInt (w ++ t) = some n := by rw [pyInt_ws_left t hw]; exact hp
    have hne : w ++ t ≠ [] := by
      intro hnil
      rw [hnil] at hp'
      rw [show pyInt [] = none from rfl] at hp'
      exact absurd hp' (by simp)
    have hnw : ¬ (w ++ t = chars "x" ∨ w ++ t = chars "X" ∨ w ++ t = chars "*") := by
      intro hcase
      rw [pyInt_wild hcase] at hp'
      exact absurd hp' (by simp)
    exact parse_number_pyInt hne hnw hp'

/-- Padding a numeric token with whitespace on the right preserves its
parse. -/
theorem parse_number_pad_right {w t : Str} {n : Int} (hw : wsOnly w = true)
    (h : _parse_number (Raw.str t) = Except.ok (Field.num n)) :
    _parse_number (Raw.str (t ++ w)) = Except.ok (Field.num n) := by
  rcases parse_number_str_ok h with ⟨_, h2⟩ | ⟨_, h2⟩ | ⟨m, hp, hm⟩
  · exact absurd h2 (by simp)
  · exact absurd h2 (by simp)
  · have hnm : n = m := by injection hm
    subst hnm
    have hp' : pyInt (t ++ w) = some n := by rw [pyInt_ws_right t hw]; exact hp
    have hne : t ++ w ≠ [] := by
      intro hnil
      rw [hnil] at hp'
      rw [show pyInt [] = none from rfl] at hp'
      exact absurd hp' (by simp)
    have hnw : ¬ (t ++ w = chars "x" ∨ t ++ w = chars "X" ∨ t ++ w = chars "*") := by
      intro hcase
      rw [pyInt_wild hcase] at hp'
      exact absurd hp' (by simp)
    exact parse_number_pyInt hne hnw hp'

/-! ## Model-level lemmas: `VersionNumber` -/

set_option maxHeartbeats 1000000 in
theorem validate_ok_iff (v : VersionNumber) :
    v._validate = Except.ok () ↔
      (v.major ≠ Field.wild ∧ v.major.isNonnegInt = true
       ∧ (v.minor = Field.wild → v.micro = Field.unset)
       ∧ (v.minor ≠ Field.wild → v.minor.isNonnegInt = true)
       ∧ (v.micro ≠ Field.unset → v.micro ≠ Field.wild → v.micro.isNonnegInt = true)
       ∧ (v.major.truthy = true ∨ v.minor.truthy = true ∨ v.micro.truthy = true)) := by
  unfold VersionNumber._validate
  split_ifs with h1 h2 h3 h4 h5 h6 <;> simp_all <;> try tauto
  all_goals cases hA : v.major.truthy <;> cases hB : v.minor.truthy <;> simp_all

theorem mkRaw_ok_iff {a b c : Raw} {v : VersionNumber} :
    VersionNumber.mkRaw a b c = Except.ok v ↔
      (_parse_number a = Except.ok v.major ∧ _parse_number b = Except.ok v.minor
       ∧ _parse_number c = Except.ok v.micro ∧ v._validate = Except.ok ()) := by
  constructor
  · intro h
    unfold VersionNumber.mkRaw at h
    split at h
    next e heq => exact absurd h (by simp)
    next ma hpa =>
      split at h
      next e heq => exact absurd h (by simp)
      next mb hpb =>
        split at h
        next e heq => exact absurd h (by simp)
        next mc hpc =>
          split at h
          next e heq => exact absurd h (by simp)
          next u hval =>
            have hveq : v = ⟨ma, mb, mc⟩ := by cases h; rfl
            subst hveq
            exact ⟨hpa, hpb, hpc, by rw [hval]⟩
  · rintro ⟨h1, h2, h3, h4⟩
    unfold VersionNumber.mkRaw
    rw [h1, h2, h3]
    have hv : (⟨v.major, v.minor, v.micro⟩ : VersionNumber) = v := rfl
    show (match (⟨v.major, v.minor, v.micro⟩ : VersionNumber)._validate with
      | Except.error e => Except.error e
      | Except.ok _ => Except.ok (⟨v.major, v.minor, v.micro⟩ : VersionNumber))
        = Except.ok v
    rw [hv, h4]

/-- A `VersionNumber` whose minor argument is the empty string is never
constructed: the empty token classifies as unset and `_validate` rejects
a missing minor (some earlier error may fire instead). -/
theorem mkRaw_minor_nil (a c : Raw) (v : VersionNumber) :
    VersionNumber.mkRaw a (Raw.str []) c ≠ Except.ok v := by
  intro h
  rcases mkRaw_ok_iff.mp h with ⟨_, h2, _, h4⟩
  rw [parse_number_nil] at h2
  have hminor : v.minor = Field.unset := by
    have := h2
    injection this with h'
    exact h'.symm
  rcases (validate_ok_iff v).mp h4 with ⟨_, _, _, h5, _⟩
  have := h5 (by rw [hminor]; simp)
  rw [hminor] at this
  simp [Field.isNonnegInt] at this

/-- A `VersionNumber` whose micro argument is non-empty whitespace is
never constructed: `int()` fails on it. -/
theorem mkRaw_micro_ws (a b : Raw) {w : Str} (hne : w ≠ []) (hw : wsOnly w = true)
    (v : VersionNumber) : VersionNumber.mkRaw a b (Raw.str w) ≠ Except.ok v := by
  intro h
  rcases mkRaw_ok_iff.mp h with ⟨_, _, h3, _⟩
  rw [parse_number_ws hne hw] at h3
  exact absurd h3 (by simp)

/-! ## Model-level lemmas: release levels -/

theorem releaselevel_matches_cons (lvl k : Str) (rest : List Str) :
    _releaselevel_matches lvl (k :: rest)
      = if listStarts k lvl then
          (match pyInt (lvl.drop k.length) with
           | none => false
           | some n => decide (1 ≤ n))
        else _releaselevel_matches lvl rest := rfl

theorem releaselevel_matches_elim {lvl : Str} {cands : List Str}
    (h : _releaselevel_matches lvl cands = true) :
    ∃ kind ∈ cands, ∃ t n, lvl = kind ++ t ∧ pyInt t = some n ∧ 1 ≤ n := by
  induction cands with
  | nil => simp [_releaselevel_matches] at h
  | cons k rest ih =>
    rw [releaselevel_matches_cons] at h
    by_cases hs : listStarts k lvl = true
    · rw [if_pos hs] at h
      cases hp : pyInt (lvl.drop k.length) with
      | none => rw [hp] at h; simp at h
      | some n =>
        rw [hp] at h
        rcases listStarts_elim hs with ⟨t, rfl⟩
        rw [List.drop_left] at hp
        exact ⟨k, by simp, t, n, rfl, hp, by simpa using h⟩
    · rw [if_neg (by simpa using hs)] at h
      rcases ih h with ⟨kind, hk, t, n, ht, hp, hn⟩
      exact ⟨kind, by simp [hk], t, n, ht, hp, hn⟩

theorem dev_elim {lvl : Str} (h : _is_dev_releaselevel lvl = true) :
    ∃ kind t n,
      (kind = RELEASE_ALPHA ∨ kind = RELEASE_BETA ∨ kind = RELEASE_CANDIDATE)
      ∧ lvl = kind ++ t ∧ pyInt t = some n ∧ 1 ≤ n := by
  rcases releaselevel_matches_elim h with ⟨kind, hk, t, n, ht, hp, hn⟩
  refine ⟨kind, t, n, ?_, ht, hp, hn⟩
  simpa using hk

theorem dash_not_digit {s : Str} {a m : Nat}
    (hm : ('-' : Char) ∈ s) (h : digitsValAux a s = some m) : False := by
  have := digitsValAux_some_mem h hm
  rw [show charDigit '-' = none by decide] at this
  simp at this

theorem nonemptyDigitsVal_some {s : Str} {m : Nat}
    (h : nonemptyDigitsVal s = some m) :
    s ≠ [] ∧ digitsValAux 0 s = some m := by
  unfold nonemptyDigitsVal at h
  by_cases hs : s = []
  · rw [if_pos hs] at h; exact absurd h (by simp)
  · rw [if_neg hs] at h; exact ⟨hs, h⟩

theorem pyInt_pos_no_dash {s : Str} {n : Int}
    (h : pyInt s = some n) (hn : 1 ≤ n) : ('-' : Char) ∉ s := by
  intro hm
  have hm' : ('-' : Char) ∈ pyStrip s := mem_pyStrip hm (by decide)
  unfold pyInt at h
  cases hst : pyStrip s with
  | nil => rw [hst] at hm'; simp at hm'
  | cons c rest =>
    rw [hst] at h hm'
    rw [pyIntCore_cons] at h
    by_cases hc : c = '+'
    · rw [if_pos hc] at h
      rcases Option.map_eq_some'.mp h with ⟨m, hv, _⟩
      rcases nonemptyDigitsVal_some hv with ⟨_, hd⟩
      rcases List.mem_cons.mp hm' with hdash | hdash
      · rw [hc] at hdash
        exact absurd hdash.symm (by decide)
      · exact dash_not_digit hdash hd
    · rw [if_neg hc] at h
      by_cases hc2 : c = '-'
      · rw [if_pos hc2] at h
        rcases Option.map_eq_some'.mp h with ⟨m, _, hv2⟩
        have hv2' : -(Int.ofNat m) = n := hv2
        have h0 : 0 ≤ Int.ofNat m := Int.ofNat_nonneg m
        omega
      · rw [if_neg hc2] at h
        rcases Option.map_eq_some'.mp h with ⟨m, hv, _⟩
        rcases nonemptyDigitsVal_some hv with ⟨_, hd⟩
        exact dash_not_digit hm' hd

theorem dev_no_dash {lvl : Str} (h : _is_dev_releaselevel lvl = true) :
    ('-' : Char) ∉ lvl := by
  rcases dev_elim h with ⟨kind, t, n, hk, rfl, hp, hn⟩
  intro hm
  rcases List.mem_append.mp hm with hm | hm
  · rcases hk with rfl | rfl | rfl <;> exact absurd hm (by decide)
  · exact pyInt_pos_no_dash hp hn hm

theorem dev_ne_nil {lvl : Str} (h : _is_dev_releaselevel lvl = true) : lvl ≠ [] := by
  rcases dev_elim h with ⟨kind, t, n, hk, rfl, _, _⟩
  rcases hk with rfl | rfl | rfl <;> simp [RELEASE_ALPHA, RELEASE_BETA,
    RELEASE_CANDIDATE, chars]

theorem dev_valid {lvl : Str} (h : _is_dev_releaselevel lvl = true) :
    _is_valid_releaselevel lvl = true := by
  unfold _is_valid_releaselevel
  by_cases hc : lvl = [] ∨ lvl = RELEASE_FINAL
  · rw [if_pos hc]
  · rw [if_neg hc]
    exact h

theorem valid_releaselevel_elim {lvl : Str} (hne : lvl ≠ [])
    (h : _is_valid_releaselevel lvl = true) :
    lvl = RELEASE_FINAL ∨ _is_dev_releaselevel lvl = true := by
  unfold _is_valid_releaselevel at h
  by_cases hc : lvl = [] ∨ lvl = RELEASE_FINAL
  · rcases hc with rfl | hc
    · exact absurd rfl hne
    · exact Or.inl hc
  · rw [if_neg hc] at h
    exact Or.inr h

/-! ## Model-level lemmas: `Version` construction -/

theorem normTruthyLower_none :
    Version.normTruthyLower Option.none = Option.none := rfl

theorem normTruthyLower_some_eq (t : Str) :
    Version.normTruthyLower (Option.some t)
      = if t = [] then Option.none else Option.some (pyLower t) := rfl

theorem normLevel_none : Version.normLevel Option.none = RELEASE_FINAL := rfl

theorem normLevel_some (s : Str) :
    Version.normLevel (Option.some s)
      = if s = [] then RELEASE_FINAL else pyLower s := rfl

theorem normTruthyLower_some {o : Option Str} {s : Str}
    (h : Version.normTruthyLower o = Option.some s) :
    s ≠ [] ∧ pyLower s = s
      ∧ Version.normTruthyLower (Option.some s) = Option.some s := by
  cases o with
  | none => exact absurd h (by simp [normTruthyLower_none])
  | some t =>
    rw [normTruthyLower_some_eq] at h
    by_cases ht : t = []
    · rw [if_pos ht] at h
      exact absurd h (by simp)
    · rw [if_neg ht] at h
      have hs : s = pyLower t := by
        injection h with h'
        exact h'.symm
      have hne : s ≠ [] := by
        rw [hs]
        simpa [pyLower] using ht
      have hfix : pyLower s = s := by rw [hs, pyLower_idem]
      refine ⟨hne, hfix, ?_⟩
      rw [normTruthyLower_some_eq, if_neg hne, hfix]

theorem normLevel_fixed (rl : Option Str) :
    Version.normLevel rl ≠ []
      ∧ pyLower (Version.normLevel rl) = Version.normLevel rl
      ∧ Version.normLevel (Option.some (Version.normLevel rl))
          = Version.normLevel rl := by
  have hfinal : pyLower RELEASE_FINAL = RELEASE_FINAL := by decide
  have hfinne : RELEASE_FINAL ≠ ([] : Str) := by decide
  cases rl with
  | none =>
    rw [normLevel_none]
    refine ⟨hfinne, hfinal, ?_⟩
    rw [normLevel_some, if_neg hfinne, hfinal]
  | some s =>
    rw [normLevel_some]
    by_cases hs : s = []
    · rw [if_pos hs]
      refine ⟨hfinne, hfinal, ?_⟩
      rw [normLevel_some, if_neg hfinne, hfinal]
    · rw [if_neg hs]
      have hne : pyLower s ≠ [] := by simpa [pyLower] using hs
      refine ⟨hne, pyLower_idem s, ?_⟩
      rw [normLevel_some, if_neg hne, pyLower_idem]

set_option maxHeartbeats 1000000 in
theorem version_validate_ok_iff (v : Version) :
    v._validate = Except.ok () ↔
      (v.number.iswildcard = false ∧ v.releaselevel ≠ []
       ∧ _is_valid_releaselevel v.releaselevel = true
       ∧ ¬ (v.series.isSome ∧ v.arch = Option.none)
       ∧ ¬ (v.arch.isSome ∧ v.series = Option.none)) := by
  unfold Version._validate
  split_ifs with h1 h2 h3 h4 h5 <;> simp_all

theorem make_eq (num : VersionNumber) (rl ser ar : Option Str) :
    Version.make (Option.some num) rl ser ar
      = (match (⟨num, Version.normLevel rl, Version.normTruthyLower ser,
                 Version.normTruthyLower ar⟩ : Version)._validate with
         | Except.error e => Except.error e
         | Except.ok _ =>
           Except.ok ⟨num, Version.normLevel rl, Version.normTruthyLower ser,
             Version.normTruthyLower ar⟩) := rfl

theorem make_ok_elim {num : VersionNumber} {rl ser ar : Option Str} {v : Version}
    (h : Version.make (Option.some num) rl ser ar = Except.ok v) :
    v = ⟨num, Version.normLevel rl, Version.normTruthyLower ser,
          Version.normTruthyLower ar⟩
    ∧ v._validate = Except.ok () := by
  rw [make_eq] at h
  cases hv : (⟨num, Version.normLevel rl, Version.normTruthyLower ser,
      Version.normTruthyLower ar⟩ : Version)._validate with
  | error e => rw [hv] at h; exact absurd h (by simp)
  | ok u =>
    rw [hv] at h
    have hveq : v = ⟨num, Version.normLevel rl, Version.normTruthyLower ser,
        Version.normTruthyLower ar⟩ := by
      cases h
      rfl
    refine ⟨hveq, ?_⟩
    rw [hveq, ← hv]

theorem make_ok_intro {num : VersionNumber} {rl ser ar : Option Str}
    (h : (⟨num, Version.normLevel rl, Version.normTruthyLower ser,
           Version.normTruthyLower ar⟩ : Version)._validate = Except.ok ()) :
    Version.make (Option.some num) rl ser ar
      = Except.ok ⟨num, Version.normLevel rl, Version.normTruthyLower ser,
          Version.normTruthyLower ar⟩ := by
  rw [make_eq, h]

/-! ## Claim theorems: concrete evaluations -/

/-- Claim C10: constructing `VersionNumber(0, 0, "x")` — major 0, minor 0,
wildcard micro — succeeds, as does `VersionNumber(0, "x")`; the all-zero
rejection fires only when the micro is 0 or unset, as witnessed by the
failing constructions `VersionNumber(0, 0, 0)` and `VersionNumber(0, 0)`. -/
theorem claim_C10 :
    VersionNumber.mkRaw (Raw.int 0) (Raw.int 0) (Raw.str (chars "x"))
        = Except.ok ⟨Field.num 0, Field.num 0, Field.wild⟩
    ∧ VersionNumber.mkRaw (Raw.int 0) (Raw.str (chars "x")) Raw.none
        = Except.ok ⟨Field.num 0, Field.wild, Field.unset⟩
    ∧ VersionNumber.mkRaw (Raw.int 0) (Raw.int 0) (Raw.int 0)
        = Except.error "at least one of major, minor, and micro must be set"
    ∧ VersionNumber.mkRaw (Raw.int 0) (Raw.int 0) Raw.none
        = Except.error "at least one of major, minor, and micro must be set" :=
  ⟨rfl, rfl, rfl, rfl⟩

/-- Claim C3, failing input: on the string token `"XXX"`, which fails
base-10 integer conversion, `_parse_number` does not return the token
verbatim — the `ValueError` from `int()` escapes, because the Python 2
clause `except TypeError, ValueError` catches only `TypeError`.  The
error then surfaces from `VersionNumber("XXX", 2, 3)` as the `int()`
message, not as the owning type's validation message. -/
theorem claim_C3_failing :
    _parse_number (Raw.str (chars "XXX"))
        = Except.error "invalid literal for int() with base 10"
    ∧ VersionNumber.mkRaw (Raw.str (chars "XXX")) (Raw.int 2) (Raw.int 3)
        = Except.error "invalid literal for int() with base 10" :=
  ⟨rfl, rfl⟩

/-- Claim C2, failing input: for the valid pattern `VersionNumber(0, 0, "x")`
and the valid candidate `VersionNumber(1, 2)` the claim demands the boolean
`False` (the majors differ), but `match` raises: substituting the
candidate's unset micro into the pattern builds the degenerate
`VersionNumber(0, 0, None)`, and `_replace`'s re-validation raises the
all-zero `ValueError`. -/
theorem claim_C2_failing :
    (⟨Field.num 0, Field.num 0, Field.wild⟩ : VersionNumber)._validate = Except.ok ()
    ∧ (⟨Field.num 1, Field.num 2, Field.unset⟩ : VersionNumber)._validate = Except.ok ()
    ∧ VersionNumber.doesMatch ⟨Field.num 0, Field.num 0, Field.wild⟩
        ⟨Field.num 1, Field.num 2, Field.unset⟩
        = Except.error "at least one of major, minor, and micro must be set" :=
  ⟨rfl, rfl, rfl⟩

/-- Claim C7: `Version.parse("1.2-xenial-amd64")` fails with a format
error.  The trailing tokens resolve to level `"final"`, series
`"xenial"`, arch `"amd64"`; with level `"final"` the unset micro of
`"1.2"` is not forced to 0, the number therefore counts as a wildcard,
and `Version` validation rejects wildcard numbers. -/
theorem claim_C7 :
    Version.parseTail (chars "xenial-amd64")
        = (RELEASE_FINAL, Option.some (chars "xenial"), Option.some (chars "amd64"))
    ∧ VersionNumber.parse (chars "1.2")
        = Except.ok ⟨Field.num 1, Field.num 2, Field.unset⟩
    ∧ Version.parseForce ⟨Field.num 1, Field.num 2, Field.unset⟩ RELEASE_FINAL
        = Except.ok ⟨Field.num 1, Field.num 2, Field.unset⟩
    ∧ (⟨Field.num 1, Field.num 2, Field.unset⟩ : VersionNumber).iswildcard = true
    ∧ Version.parse (chars "1.2-xenial-amd64")
        = Except.error "wildcard versions not supported" :=
  ⟨rfl, rfl, rfl, rfl, rfl⟩

/-- Claim C1, counterexample: the Version built from number 1.2.3,
releaselevel `"final"`, series `"a-b"` and arch `"c"` is successfully
constructed (any valid non-wildcard number, valid releaselevel, and
series/arch both present), yet parsing its string back fails: the dash
inside the series makes `parse` read `"a"` as the releaselevel. -/
theorem claim_C1_counterexample :
    Version.make (Option.some ⟨Field.num 1, Field.num 2, Field.num 3⟩)
        (Option.some (chars "final")) (Option.some (chars "a-b"))
        (Option.some (chars "c"))
      = Except.ok ⟨⟨Field.num 1, Field.num 2, Field.num 3⟩, chars "final",
          Option.some (chars "a-b"), Option.some (chars "c")⟩
    ∧ Version.toStr ⟨⟨Field.num 1, Field.num 2, Field.num 3⟩, chars "final",
        Option.some (chars "a-b"), Option.some (chars "c")⟩
      = chars "1.2.3-a-b-c"
    ∧ Version.parse (chars "1.2.3-a-b-c") = Except.error "invalid releaselevel" :=
  ⟨rfl, rfl, rfl⟩

/-- Claim C8, counterexample: `"1.x "` (trailing space) and its trimmed
form `"1.x"` do not parse alike — the trimmed string parses to the
wildcard-minor value while the untrimmed one fails, because the token
`"x "` is not a recognized wildcard and `int("x ")` fails. -/
theorem claim_C8_counterexample :
    pyStrip (chars "1.x ") = chars "1.x"
    ∧ VersionNumber.parse (chars "1.x")
        = Except.ok ⟨Field.num 1, Field.wild, Field.unset⟩
    ∧ VersionNumber.parse (chars "1.x ")
        = Except.error "invalid literal for int() with base 10" :=
  ⟨rfl, rfl, rfl⟩

/-! ## Helper lemmas for the remaining claims -/

theorem make_none_eq (rl ser ar : Option Str) :
    Version.make Option.none rl ser ar = Except.error "missing number" := rfl

/-- Every successfully constructed `Version` has series and arch both
present or both absent. -/
theorem make_series_arch {number : Option VersionNumber} {rl ser ar : Option Str}
    {v : Version} (h : Version.make number rl ser ar = Except.ok v) :
    (v.series = Option.none ↔ v.arch = Option.none) := by
  cases number with
  | none => rw [make_none_eq] at h; exact absurd h (by simp)
  | some num =>
    rcases make_ok_elim h with ⟨_, hval⟩
    rcases (version_validate_ok_iff v).mp hval with ⟨_, _, _, h4, h5⟩
    constructor
    · intro hser
      cases ha : v.arch with
      | none => rfl
      | some a => exact absurd ⟨by rw [ha]; rfl, hser⟩ h5
    · intro har
      cases hs : v.series with
      | none => rfl
      | some s => exact absurd ⟨by rw [hs]; rfl, har⟩ h4

/-- Every `Version` produced by `Version.parse` comes out of the
constructor, hence satisfies the same series/arch symmetry. -/
theorem parse_series_arch {raw : Str} {v : Version}
    (h : Version.parse raw = Except.ok v) :
    (v.series = Option.none ↔ v.arch = Option.none) := by
  unfold Version.parse at h
  rcases hp : partitionList '-' raw with ⟨numStr, found, rest⟩
  rw [hp] at h
  simp only at h
  split at h
  next e heq => exact absurd h (by simp)
  next num heq =>
    split at h
    · exact make_series_arch h
    · split at h
      next e heq2 => exact absurd h (by simp)
      next num2 heq2 => exact make_series_arch h

/-! ## Claim theorems: C5, C6, C9 -/

/-- Claim C5: in `Version.parse`, whenever the parsed `VersionNumber` has
an unset micro and the resolved level is a dev tag, the micro is forced
to `0` (via `_replace`) before the `Version` is constructed; in
particular `Version.parse("1.2-beta2-xenial-amd64")` equals
`Version(VersionNumber(1,2,0), "beta2", "xenial", "amd64")`. -/
theorem claim_C5 (num : VersionNumber) (level : Str)
    (h1 : num.micro = Field.unset) (h2 : _is_dev_releaselevel level = true) :
    Version.parseForce num level = num.replaceMicro (Field.num 0)
    ∧ Version.parse (chars "1.2-beta2-xenial-amd64")
      = Except.ok ⟨⟨Field.num 1, Field.num 2, Field.num 0⟩, chars "beta2",
          Option.some (chars "xenial"), Option.some (chars "amd64")⟩ := by
  refine ⟨?_, rfl⟩
  unfold Version.parseForce
  rw [if_pos ⟨h1, h2⟩]

/-- Witness for claim C5 at the concrete pattern `1.2` with level
`beta2`. -/
theorem claim_C5_witness :
    Version.parseForce ⟨Field.num 1, Field.num 2, Field.unset⟩ (chars "beta2")
      = VersionNumber.replaceMicro ⟨Field.num 1, Field.num 2, Field.unset⟩
          (Field.num 0)
    ∧ Version.parse (chars "1.2-beta2-xenial-amd64")
      = Except.ok ⟨⟨Field.num 1, Field.num 2, Field.num 0⟩, chars "beta2",
          Option.some (chars "xenial"), Option.some (chars "amd64")⟩ :=
  claim_C5 ⟨Field.num 1, Field.num 2, Field.unset⟩ (chars "beta2") rfl rfl

/-- Claim C6: when the remainder after the `VersionNumber` segment holds
exactly two dash-separated tokens (no dash in the second), `Version.parse`
reinterprets them — the last token becomes arch, the first becomes
series, and the level resets to `"final"`; in particular
`Version.parse("1.2.3-xenial-amd64")` equals
`Version(VersionNumber(1,2,3), "final", "xenial", "amd64")`. -/
theorem claim_C6 (t1 t2 : Str) (h1 : ('-' : Char) ∉ t1) (h2 : ('-' : Char) ∉ t2) :
    Version.parseTail (t1 ++ '-' :: t2)
      = (RELEASE_FINAL, Option.some t1, Option.some t2)
    ∧ Version.parse (chars "1.2.3-xenial-amd64")
      = Except.ok ⟨⟨Field.num 1, Field.num 2, Field.num 3⟩, chars "final",
          Option.some (chars "xenial"), Option.some (chars "amd64")⟩ := by
  refine ⟨?_, rfl⟩
  unfold Version.parseTail
  rw [partition_split t2 h1]
  simp only
  rw [partition_not_mem h2]
  simp

/-- Witness for claim C6 at the concrete tail `xenial-amd64`. -/
theorem claim_C6_witness :
    Version.parseTail (chars "xenial" ++ '-' :: chars "amd64")
      = (RELEASE_FINAL, Option.some (chars "xenial"), Option.some (chars "amd64"))
    ∧ Version.parse (chars "1.2.3-xenial-amd64")
      = Except.ok ⟨⟨Field.num 1, Field.num 2, Field.num 3⟩, chars "final",
          Option.some (chars "xenial"), Option.some (chars "amd64")⟩ :=
  claim_C6 (chars "xenial") (chars "amd64") (by decide) (by decide)

/-- Claim C9: every successfully constructed `Version`, whether built
directly or via `Version.parse`, has series and arch both present or
both absent; constructing with series set but arch unset fails, and
vice versa. -/
theorem claim_C9 :
    (∀ (number : Option VersionNumber) (rl ser ar : Option Str) (v : Version),
      Version.make number rl ser ar = Except.ok v
        → (v.series = Option.none ↔ v.arch = Option.none))
    ∧ (∀ (raw : Str) (v : Version),
      Version.parse raw = Except.ok v
        → (v.series = Option.none ↔ v.arch = Option.none))
    ∧ Version.make (Option.some ⟨Field.num 1, Field.num 2, Field.num 3⟩)
        (Option.some (chars "beta3")) (Option.some (chars "xenial")) Option.none
      = Except.error "missing arch (have series)"
    ∧ Version.make (Option.some ⟨Field.num 1, Field.num 2, Field.num 3⟩)
        (Option.some (chars "beta3")) Option.none (Option.some (chars "amd64"))
      = Except.error "missing series (have arch)" :=
  ⟨fun _ _ _ _ _ h => make_series_arch h,
   fun _ _ h => parse_series_arch h, rfl, rfl⟩

/-- Witness for claim C9 at a concrete constructed Version. -/
theorem claim_C9_witness :
    ((⟨⟨Field.num 1, Field.num 2, Field.num 3⟩, RELEASE_FINAL,
        Option.none, Option.none⟩ : Version).series = Option.none
      ↔ (⟨⟨Field.num 1, Field.num 2, Field.num 3⟩, RELEASE_FINAL,
        Option.none, Option.none⟩ : Version).arch = Option.none) :=
  claim_C9.1 (Option.some ⟨Field.num 1, Field.num 2, Field.num 3⟩)
    Option.none Option.none Option.none _ rfl

/-! ## Helper lemmas for the round-trip claims -/

theorem isNonnegInt_elim {f : Field} (h : f.isNonnegInt = true) :
    ∃ n, f = Field.num n ∧ 0 ≤ n := by
  cases f with
  | unset => simp [Field.isNonnegInt] at h
  | wild => simp [Field.isNonnegInt] at h
  | num n =>
    refine ⟨n, rfl, ?_⟩
    simpa [Field.isNonnegInt] using h

theorem fieldStr_num_eq {n : Int} (hn : 0 ≤ n) :
    (Field.num n).fieldStr = natChars n.toNat := intStr_nonneg hn

theorem fieldStr_num_no_char {n : Int} (hn : 0 ≤ n) {c : Char}
    (hc : ¬ (48 ≤ c.toNat ∧ c.toNat ≤ 57)) : c ∉ (Field.num n).fieldStr := by
  rw [fieldStr_num_eq hn]
  exact not_mem_natChars hc

theorem fieldStr_num_ne_nil {n : Int} (hn : 0 ≤ n) :
    (Field.num n).fieldStr ≠ [] := by
  rw [fieldStr_num_eq hn]
  exact natChars_ne_nil _

theorem toStr_unset {v : VersionNumber} (h : v.micro = Field.unset) :
    v.toStr = v.major.fieldStr ++ '.' :: v.minor.fieldStr := by
  unfold VersionNumber.toStr
  rw [h]

theorem toStr_wild {v : VersionNumber} (h : v.micro = Field.wild) :
    v.toStr = v.major.fieldStr ++ '.' :: (v.minor.fieldStr ++ '.' :: WILDCARD) := by
  unfold VersionNumber.toStr
  rw [h]
  simp [Field.fieldStr]

theorem toStr_num {v : VersionNumber} {n : Int} (h : v.micro = Field.num n) :
    v.toStr = v.major.fieldStr
      ++ '.' :: (v.minor.fieldStr ++ '.' :: (Field.num n).fieldStr) := by
  unfold VersionNumber.toStr
  rw [h]
  simp

/-- `VersionNumber.parse` in terms of the two partitions. -/
theorem vn_parse_tokens {s maj rest minor micro : Str} {found1 found2 : Bool}
    (h1 : partitionList '.' s = (maj, found1, rest))
    (h2 : partitionList '.' rest = (minor, found2, micro))
    (h3 : ¬ (found2 = true ∧ micro = [])) :
    VersionNumber.parse s
      = VersionNumber.mkRaw (Raw.str maj) (Raw.str minor) (Raw.str micro) := by
  unfold VersionNumber.parse
  rw [h1]
  simp only
  rw [h2]
  simp only
  rw [if_neg h3]

/-- `VersionNumber.parse` when the string ends in a bare dot. -/
theorem vn_parse_missing_micro {s maj rest minor : Str} {found1 : Bool}
    (h1 : partitionList '.' s = (maj, found1, rest))
    (h2 : partitionList '.' rest = (minor, true, [])) :
    VersionNumber.parse s = Except.error "missing micro" := by
  unfold VersionNumber.parse
  rw [h1]
  simp only
  rw [h2]
  simp only
  rw [if_pos (by simp)]

theorem parse_number_wildcard :
    _parse_number (Raw.str WILDCARD) = Except.ok Field.wild := rfl

theorem dot_not_digit : ¬ (48 ≤ ('.' : Char).toNat ∧ ('.' : Char).toNat ≤ 57) := by
  decide

/-! ## Claim C4 -/

/-- Round trip of `VersionNumber.parse` over `__str__` for any validated
value. -/
theorem vn_parse_toStr (v : VersionNumber) (hval : v._validate = Except.ok ()) :
    VersionNumber.parse v.toStr = Except.ok v := by
  rcases (validate_ok_iff v).mp hval with ⟨hmw, hmint, hminw, hminint, hmicint, htr⟩
  rcases isNonnegInt_elim hmint with ⟨a, hmaj, ha⟩
  have hdotA : ('.' : Char) ∉ v.major.fieldStr := by
    rw [hmaj]
    exact fieldStr_num_no_char ha dot_not_digit
  have hA : _parse_number (Raw.str v.major.fieldStr) = Except.ok v.major := by
    rw [hmaj, fieldStr_num_eq ha, parse_number_natChars]
    congr 2
    omega
  cases hmin : v.minor with
  | unset =>
    have := hminint (by rw [hmin]; simp)
    rw [hmin] at this
    simp [Field.isNonnegInt] at this
  | wild =>
    have hmic : v.micro = Field.unset := hminw hmin
    rw [toStr_unset hmic, hmin]
    have hB : (Field.wild).fieldStr = WILDCARD := rfl
    rw [hB]
    rw [vn_parse_tokens (partition_split WILDCARD hdotA)
      (partition_not_mem (by decide)) (by simp)]
    refine mkRaw_ok_iff.mpr ⟨hA, ?_, ?_, hval⟩
    · rw [hmin]
      exact parse_number_wildcard
    · rw [hmic]
      exact parse_number_nil
  | num b =>
    have hb : 0 ≤ b := by
      have := hminint (by rw [hmin]; simp)
      rw [hmin] at this
      simpa [Field.isNonnegInt] using this
    have hdotB : ('.' : Char) ∉ (Field.num b).fieldStr :=
      fieldStr_num_no_char hb dot_not_digit
    have hBok : _parse_number (Raw.str (Field.num b).fieldStr)
        = Except.ok v.minor := by
      rw [fieldStr_num_eq hb, parse_number_natChars, hmin]
      congr 2
      omega
    cases hmic : v.micro with
    | unset =>
      rw [toStr_unset hmic, hmin]
      rw [vn_parse_tokens (partition_split (Field.num b).fieldStr hdotA)
        (partition_not_mem hdotB) (by simp)]
      refine mkRaw_ok_iff.mpr ⟨hA, hBok, ?_, hval⟩
      rw [hmic]
      exact parse_number_nil
    | wild =>
      rw [toStr_wild hmic, hmin]
      rw [vn_parse_tokens (partition_split _ hdotA)
        (partition_split WILDCARD hdotB) (by simp [WILDCARD, chars])]
      refine mkRaw_ok_iff.mpr ⟨hA, hBok, ?_, hval⟩
      rw [hmic]
      exact parse_number_wildcard
    | num c =>
      have hc : 0 ≤ c := by
        have := hmicint (by rw [hmic]; simp) (by rw [hmic]; simp)
        rw [hmic] at this
        simpa [Field.isNonnegInt] using this
      rw [toStr_num hmic, hmin]
      rw [vn_parse_tokens (partition_split _ hdotA)
        (partition_split (Field.num c).fieldStr hdotB)
        (by simp [fieldStr_num_ne_nil hc])]
      refine mkRaw_ok_iff.mpr ⟨hA, hBok, ?_, hval⟩
      rw [fieldStr_num_eq hc, parse_number_natChars, hmic]
      congr 2
      omega

/-- Claim C4: for every valid `VersionNumber` v — including values with a
wildcard minor, a wildcard micro, or an unset micro —
`VersionNumber.parse(v.toString())` succeeds and equals v (`toString`
renders the wildcard as the literal character x, which `parse` maps back
to the wildcard marker). -/
theorem claim_C4 (v : VersionNumber) (hval : v._validate = Except.ok ()) :
    VersionNumber.parse v.toStr = Except.ok v :=
  vn_parse_toStr v hval

/-- Witness for claim C4 at the wildcard-minor value `1.x`. -/
theorem claim_C4_witness :
    VersionNumber.parse
        (VersionNumber.toStr ⟨Field.num 1, Field.wild, Field.unset⟩)
      = Except.ok ⟨Field.num 1, Field.wild, Field.unset⟩ :=
  claim_C4 ⟨Field.num 1, Field.wild, Field.unset⟩ rfl

/-! ## Helper lemmas toward claim C1 -/

theorem dash_not_digit_fact :
    ¬ (48 ≤ ('-' : Char).toNat ∧ ('-' : Char).toNat ≤ 57) := by decide

theorem iswildcard_false_elim {v : VersionNumber} (h : v.iswildcard = false) :
    v.minor ≠ Field.wild ∧ v.micro ≠ Field.unset ∧ v.micro ≠ Field.wild := by
  unfold VersionNumber.iswildcard at h
  by_cases h1 : v.minor = Field.wild
  · rw [if_pos h1] at h
    simp at h
  · rw [if_neg h1] at h
    by_cases h2 : v.micro = Field.unset ∨ v.micro = Field.wild
    · rw [if_pos h2] at h
      simp at h
    · push_neg at h2
      exact ⟨h1, h2.1, h2.2⟩

/-- A validated, non-wildcard `VersionNumber` is three concrete
non-negative integers, not all zero. -/
theorem valid_concrete_elim {n : VersionNumber} (hval : n._validate = Except.ok ())
    (hw : n.iswildcard = false) :
    ∃ a b c : Int, n = ⟨Field.num a, Field.num b, Field.num c⟩
      ∧ 0 ≤ a ∧ 0 ≤ b ∧ 0 ≤ c ∧ (a ≠ 0 ∨ b ≠ 0 ∨ c ≠ 0) := by
  rcases iswildcard_false_elim hw with ⟨h1, h2, h3⟩
  rcases (validate_ok_iff n).mp hval with ⟨_, hmint, _, hminint, hmicint, htr⟩
  rcases isNonnegInt_elim hmint with ⟨a, ha, ha0⟩
  rcases isNonnegInt_elim (hminint h1) with ⟨b, hb, hb0⟩
  rcases isNonnegInt_elim (hmicint h2 h3) with ⟨c, hc, hc0⟩
  refine ⟨a, b, c, ?_, ha0, hb0, hc0, ?_⟩
  · cases n
    simp_all
  · rcases htr with h | h | h
    · rw [ha] at h
      exact Or.inl (by simpa [Field.truthy] using h)
    · rw [hb] at h
      exact Or.inr (Or.inl (by simpa [Field.truthy] using h))
    · rw [hc] at h
      exact Or.inr (Or.inr (by simpa [Field.truthy] using h))

theorem noDash_some {s : Str} (h : noDash (Option.some s) = true) :
    ('-' : Char) ∉ s := by
  simpa [noDash] using h

theorem dev_ne_final {L : Str} (h : _is_dev_releaselevel L = true) :
    L ≠ RELEASE_FINAL := by
  intro hL
  rw [hL] at h
  exact absurd h (by decide)

theorem dash_not_mem_numStr2 {a b : Int} (ha : 0 ≤ a) (hb : 0 ≤ b) :
    ('-' : Char) ∉ (Field.num a).fieldStr ++ '.' :: (Field.num b).fieldStr := by
  intro hm
  rcases List.mem_append.mp hm with hm | hm
  · exact fieldStr_num_no_char ha dash_not_digit_fact hm
  · rcases List.mem_cons.mp hm with h | hm
    · exact absurd h (by decide)
    · exact fieldStr_num_no_char hb dash_not_digit_fact hm

theorem dash_not_mem_numStr3 {a b c : Int} (ha : 0 ≤ a) (hb : 0 ≤ b) (hc : 0 ≤ c) :
    ('-' : Char) ∉ (Field.num a).fieldStr
      ++ '.' :: ((Field.num b).fieldStr ++ '.' :: (Field.num c).fieldStr) := by
  intro hm
  rcases List.mem_append.mp hm with hm | hm
  · exact fieldStr_num_no_char ha dash_not_digit_fact hm
  · rcases List.mem_cons.mp hm with h | hm
    · exact absurd h (by decide)
    · rcases List.mem_append.mp hm with hm | hm
      · exact fieldStr_num_no_char hb dash_not_digit_fact hm
      · rcases List.mem_cons.mp hm with h | hm
        · exact absurd h (by decide)
        · exact fieldStr_num_no_char hc dash_not_digit_fact hm

/-- Parsing `"a.b"` printed from two validated components yields the
unset-micro value. -/
theorem vn_parse_two {a b : Int} (ha : 0 ≤ a) (hb : 0 ≤ b)
    (hab : a ≠ 0 ∨ b ≠ 0) :
    VersionNumber.parse ((Field.num a).fieldStr ++ '.' :: (Field.num b).fieldStr)
      = Except.ok ⟨Field.num a, Field.num b, Field.unset⟩ := by
  rw [vn_parse_tokens (partition_split _ (fieldStr_num_no_char ha dot_not_digit))
    (partition_not_mem (fieldStr_num_no_char hb dot_not_digit)) (by simp)]
  refine mkRaw_ok_iff.mpr ⟨?_, ?_, parse_number_nil, ?_⟩
  · rw [fieldStr_num_eq ha, parse_number_natChars]
    congr 2
    omega
  · rw [fieldStr_num_eq hb, parse_number_natChars]
    congr 2
    omega
  · refine (validate_ok_iff _).mpr ⟨by simp, by simpa [Field.isNonnegInt] using ha,
      by simp, fun _ => by simpa [Field.isNonnegInt] using hb, by simp, ?_⟩
    rcases hab with h | h
    · exact Or.inl (by simpa [Field.truthy] using h)
    · exact Or.inr (Or.inl (by simpa [Field.truthy] using h))

/-- Dropping the `.0` micro from the printed number. -/
theorem toStr_drop_micro {a b c : Int} (hc : 0 ≤ c) :
    rpartitionFst '.' ((Field.num a).fieldStr
        ++ '.' :: ((Field.num b).fieldStr ++ '.' :: (Field.num c).fieldStr))
      = (Field.num a).fieldStr ++ '.' :: (Field.num b).fieldStr := by
  have hre : (Field.num a).fieldStr
        ++ '.' :: ((Field.num b).fieldStr ++ '.' :: (Field.num c).fieldStr)
      = ((Field.num a).fieldStr ++ '.' :: (Field.num b).fieldStr)
        ++ '.' :: (Field.num c).fieldStr := by
    simp
  rw [hre, rpartitionFst_append _ (fieldStr_num_no_char hc dot_not_digit)]

theorem parseTail_reinterpret {s t : Str} (hs : ('-' : Char) ∉ s)
    (ht : ('-' : Char) ∉ t) :
    Version.parseTail (s ++ '-' :: t)
      = (RELEASE_FINAL, Option.some s, Option.some t) := by
  unfold Version.parseTail
  rw [partition_split t hs]
  simp only
  rw [partition_not_mem ht]
  simp

theorem parseTail_two {L s t : Str} (hL : ('-' : Char) ∉ L)
    (hs : ('-' : Char) ∉ s) :
    Version.parseTail (L ++ '-' :: (s ++ '-' :: t))
      = (L, Option.some s, Option.some t) := by
  unfold Version.parseTail
  rw [partition_split _ hL]
  simp only
  rw [partition_split t hs]
  simp

theorem parseTail_one {L : Str} (hL : ('-' : Char) ∉ L) :
    Version.parseTail L = (L, Option.none, Option.none) := by
  unfold Version.parseTail
  rw [partition_not_mem hL]
  simp

theorem parseForce_micro_set {n : VersionNumber} (h : n.micro ≠ Field.unset)
    (L : Str) : Version.parseForce n L = Except.ok n := by
  unfold Version.parseForce
  rw [if_neg (fun hc => h hc.1)]

theorem parseForce_dev {n : VersionNumber} {L : Str} (h1 : n.micro = Field.unset)
    (h2 : _is_dev_releaselevel L = true) :
    Version.parseForce n L = n.replaceMicro (Field.num 0) := by
  unfold Version.parseForce
  rw [if_pos ⟨h1, h2⟩]

theorem replaceMicro_ok {v : VersionNumber} {m : Field}
    (hval : (⟨v.major, v.minor, m⟩ : VersionNumber)._validate = Except.ok ()) :
    v.replaceMicro m = Except.ok ⟨v.major, v.minor, m⟩ :=
  mkRaw_ok_iff.mpr ⟨parse_number_toRaw _, parse_number_toRaw _,
    parse_number_toRaw _, hval⟩

/-- `Version.parse` of a dash-free string. -/
theorem version_parse_nodash {s : Str} {n : VersionNumber}
    (hpart : partitionList '-' s = (s, false, []))
    (hn : VersionNumber.parse s = Except.ok n) :
    Version.parse s
      = Version.make (Option.some n) Option.none Option.none Option.none := by
  unfold Version.parse
  rw [hpart]
  simp only
  rw [hn]
  simp

/-- `Version.parse` when the dash partition and every later stage are
known. -/
theorem version_parse_full {s numStr rest L : Str} {n n2 : VersionNumber}
    {S A : Option Str}
    (hpart : partitionList '-' s = (numStr, true, rest))
    (hn : VersionNumber.parse numStr = Except.ok n)
    (htail : Version.parseTail rest = (L, S, A))
    (hforce : Version.parseForce n L = Except.ok n2) :
    Version.parse s = Version.make (Option.some n2) (Option.some L) S A := by
  unfold Version.parse
  rw [hpart]
  simp only
  rw [hn]
  simp only
  rw [htail]
  simp only
  rw [hforce]
  simp

/-- `Version.make` on already-normalized arguments. -/
theorem make_fixed {num : VersionNumber} {L : Str} {S A : Option Str}
    (hL : Version.normLevel (Option.some L) = L)
    (hS : Version.normTruthyLower S = S)
    (hA : Version.normTruthyLower A = A)
    (hval : (⟨num, L, S, A⟩ : Version)._validate = Except.ok ()) :
    Version.make (Option.some num) (Option.some L) S A
      = Except.ok ⟨num, L, S, A⟩ := by
  rw [make_eq, hL, hS, hA, hval]

/-! ## The round-trip core for `Version` -/

theorem version_toStr_flat (num : VersionNumber) (L : Str) (S A : Option Str) :
    Version.toStr ⟨num, L, S, A⟩
      = ((if L ≠ RELEASE_FINAL then
            (if num.micro = Field.num 0 then rpartitionFst '.' num.toStr
             else num.toStr) ++ '-' :: L
          else num.toStr)
         ++ (match S with | Option.some s => '-' :: s | Option.none => []))
        ++ (match A with | Option.some t => '-' :: t | Option.none => []) := by
  unfold Version.toStr
  cases S <;> cases A <;> simp

theorem make_noargs {num : VersionNumber}
    (hval : (⟨num, RELEASE_FINAL, Option.none, Option.none⟩ : Version)._validate
      = Except.ok ()) :
    Version.make (Option.some num) Option.none Option.none Option.none
      = Except.ok ⟨num, RELEASE_FINAL, Option.none, Option.none⟩ := by
  rw [make_eq, normLevel_none, normTruthyLower_none, hval]

/-- The round trip for a validated `Version` with already-normalized,
dash-free fields. -/
theorem version_roundtrip_core (num : VersionNumber) (L : Str) (S A : Option Str)
    (hnum : num._validate = Except.ok ())
    (hval : (⟨num, L, S, A⟩ : Version)._validate = Except.ok ())
    (hLfix : Version.normLevel (Option.some L) = L)
    (hSfix : Version.normTruthyLower S = S)
    (hAfix : Version.normTruthyLower A = A)
    (hserD : noDash S = true) (harD : noDash A = true) :
    Version.parse (Version.toStr ⟨num, L, S, A⟩) = Except.ok ⟨num, L, S, A⟩ := by
  rcases (version_validate_ok_iff _).mp hval with ⟨hw, hLne, hLvalid, hsa1, hsa2⟩
  rcases valid_concrete_elim hnum hw with ⟨a, b, c, hn, ha, hb, hc, habc⟩
  subst hn
  have hn3 : VersionNumber.parse ((Field.num a).fieldStr
      ++ '.' :: ((Field.num b).fieldStr ++ '.' :: (Field.num c).fieldStr))
      = Except.ok ⟨Field.num a, Field.num b, Field.num c⟩ := by
    have h := vn_parse_toStr _ hnum
    rw [toStr_num rfl] at h
    exact h
  have htoStr3 : (⟨Field.num a, Field.num b, Field.num c⟩ : VersionNumber).toStr
      = (Field.num a).fieldStr
        ++ '.' :: ((Field.num b).fieldStr ++ '.' :: (Field.num c).fieldStr) :=
    toStr_num rfl
  rcases valid_releaselevel_elim hLne hLvalid with hLfin | hLdev
  · -- releaselevel "final": the number is printed in full
    subst hLfin
    cases S with
    | none =>
      cases A with
      | none =>
        have hflat : Version.toStr ⟨⟨Field.num a, Field.num b, Field.num c⟩,
            RELEASE_FINAL, Option.none, Option.none⟩
            = (Field.num a).fieldStr
              ++ '.' :: ((Field.num b).fieldStr ++ '.' :: (Field.num c).fieldStr) := by
          rw [version_toStr_flat, if_neg (by simp), htoStr3]
          simp
        rw [hflat]
        rw [version_parse_nodash (partition_not_mem (dash_not_mem_numStr3 ha hb hc)) hn3]
        exact make_noargs hval
      | some t => exact absurd ⟨rfl, rfl⟩ hsa2
    | some s =>
      cases A with
      | none => exact absurd ⟨rfl, rfl⟩ hsa1
      | some t =>
        have hs := noDash_some hserD
        have ht := noDash_some harD
        have hflat : Version.toStr ⟨⟨Field.num a, Field.num b, Field.num c⟩,
            RELEASE_FINAL, Option.some s, Option.some t⟩
            = ((Field.num a).fieldStr
                ++ '.' :: ((Field.num b).fieldStr ++ '.' :: (Field.num c).fieldStr))
              ++ '-' :: (s ++ '-' :: t) := by
          rw [version_toStr_flat, if_neg (by simp), htoStr3]
          simp
        rw [hflat]
        rw [version_parse_full (partition_split _ (dash_not_mem_numStr3 ha hb hc))
          hn3 (parseTail_reinterpret hs ht) (parseForce_micro_set (by simp) _)]
        exact make_fixed (by decide) hSfix hAfix hval
  · -- dev releaselevel
    have hLnf : L ≠ RELEASE_FINAL := dev_ne_final hLdev
    have hLdash : ('-' : Char) ∉ L := dev_no_dash hLdev
    by_cases hc0 : c = 0
    · -- micro is zero: the printed number drops ".0"
      subst hc0
      have hdrop : rpartitionFst '.'
          ((⟨Field.num a, Field.num b, Field.num 0⟩ : VersionNumber).toStr)
          = (Field.num a).fieldStr ++ '.' :: (Field.num b).fieldStr := by
        rw [htoStr3]
        exact toStr_drop_micro hc
      have hab2 : a ≠ 0 ∨ b ≠ 0 := by
        rcases habc with h | h | h
        · exact Or.inl h
        · exact Or.inr h
        · exact absurd rfl h
      have hn2 : VersionNumber.parse
          ((Field.num a).fieldStr ++ '.' :: (Field.num b).fieldStr)
          = Except.ok ⟨Field.num a, Field.num b, Field.unset⟩ :=
        vn_parse_two ha hb hab2
      have hforce : Version.parseForce ⟨Field.num a, Field.num b, Field.unset⟩ L
          = Except.ok ⟨Field.num a, Field.num b, Field.num 0⟩ := by
        rw [parseForce_dev rfl hLdev]
        exact replaceMicro_ok hnum
      cases S with
      | none =>
        cases A with
        | none =>
          have hflat : Version.toStr ⟨⟨Field.num a, Field.num b, Field.num 0⟩,
              L, Option.none, Option.none⟩
              = ((Field.num a).fieldStr ++ '.' :: (Field.num b).fieldStr)
                ++ '-' :: L := by
            rw [version_toStr_flat, if_pos hLnf, if_pos rfl, hdrop]
            simp
          rw [hflat]
          rw [version_parse_full
            (partition_split _ (dash_not_mem_numStr2 ha hb))
            hn2 (parseTail_one hLdash) hforce]
          exact make_fixed hLfix rfl rfl hval
        | some t => exact absurd ⟨rfl, rfl⟩ hsa2
      | some s =>
        cases A with
        | none => exact absurd ⟨rfl, rfl⟩ hsa1
        | some t =>
          have hs := noDash_some hserD
          have ht := noDash_some harD
          have hflat : Version.toStr ⟨⟨Field.num a, Field.num b, Field.num 0⟩,
              L, Option.some s, Option.some t⟩
              = ((Field.num a).fieldStr ++ '.' :: (Field.num b).fieldStr)
                ++ '-' :: (L ++ '-' :: (s ++ '-' :: t)) := by
            rw [version_toStr_flat, if_pos hLnf, if_pos rfl, hdrop]
            simp
          rw [hflat]
          rw [version_parse_full
            (partition_split _ (dash_not_mem_numStr2 ha hb))
            hn2 (parseTail_two hLdash hs) hforce]
          exact make_fixed hLfix hSfix hAfix hval
    · -- micro nonzero: the printed number keeps all three parts
      have hmic0 : ¬ ((⟨Field.num a, Field.num b, Field.num c⟩ :
          VersionNumber).micro = Field.num 0) := by
        intro h
        exact hc0 (by injection h)
      have hforce : Version.parseForce ⟨Field.num a, Field.num b, Field.num c⟩ L
          = Except.ok ⟨Field.num a, Field.num b, Field.num c⟩ :=
        parseForce_micro_set (by simp) L
      cases S with
      | none =>
        cases A with
        | none =>
          have hflat : Version.toStr ⟨⟨Field.num a, Field.num b, Field.num c⟩,
              L, Option.none, Option.none⟩
              = ((Field.num a).fieldStr
                  ++ '.' :: ((Field.num b).fieldStr ++ '.' :: (Field.num c).fieldStr))
                ++ '-' :: L := by
            rw [version_toStr_flat, if_pos hLnf, if_neg hmic0, htoStr3]
            simp
          rw [hflat]
          rw [version_parse_full
            (partition_split _ (dash_not_mem_numStr3 ha hb hc))
            hn3 (parseTail_one hLdash) hforce]
          exact make_fixed hLfix rfl rfl hval
        | some t => exact absurd ⟨rfl, rfl⟩ hsa2
      | some s =>
        cases A with
        | none => exact absurd ⟨rfl, rfl⟩ hsa1
        | some t =>
          have hs := noDash_some hserD
          have ht := noDash_some harD
          have hflat : Version.toStr ⟨⟨Field.num a, Field.num b, Field.num c⟩,
              L, Option.some s, Option.some t⟩
              = ((Field.num a).fieldStr
                  ++ '.' :: ((Field.num b).fieldStr ++ '.' :: (Field.num c).fieldStr))
                ++ '-' :: (L ++ '-' :: (s ++ '-' :: t)) := by
            rw [version_toStr_flat, if_pos hLnf, if_neg hmic0, htoStr3]
            simp
          rw [hflat]
          rw [version_parse_full
            (partition_split _ (dash_not_mem_numStr3 ha hb hc))
            hn3 (parseTail_two hLdash hs) hforce]
          exact make_fixed hLfix hSfix hAfix hval

/-! ## Claim C1 -/

/-- Claim C1 (amended): for every successfully constructed Version v —
built from a validated non-wildcard `VersionNumber`, any valid
releaselevel, and series/arch both present or both absent — in which
neither series nor arch contains a dash character,
`Version.parse(v.toString())` succeeds and returns a Version equal
to v. -/
theorem claim_C1_amended (num : VersionNumber) (rl ser ar : Option Str)
    (v : Version)
    (hnum : num._validate = Except.ok ())
    (hmk : Version.make (Option.some num) rl ser ar = Except.ok v)
    (hserD : noDash v.series = true) (harD : noDash v.arch = true) :
    Version.parse v.toStr = Except.ok v := by
  rcases make_ok_elim hmk with ⟨hveq, hval⟩
  subst hveq
  refine version_roundtrip_core num (Version.normLevel rl)
    (Version.normTruthyLower ser) (Version.normTruthyLower ar) hnum hval
    (normLevel_fixed rl).2.2 ?_ ?_ hserD harD
  · cases hS : Version.normTruthyLower ser with
    | none => rfl
    | some s => exact (normTruthyLower_some hS).2.2
  · cases hA : Version.normTruthyLower ar with
    | none => rfl
    | some t => exact (normTruthyLower_some hA).2.2

/-- Witness for claim C1 at the Version `1.2.3-beta1-xenial-amd64`. -/
theorem claim_C1_witness :
    Version.parse (Version.toStr ⟨⟨Field.num 1, Field.num 2, Field.num 3⟩,
        chars "beta1", Option.some (chars "xenial"), Option.some (chars "amd64")⟩)
      = Except.ok ⟨⟨Field.num 1, Field.num 2, Field.num 3⟩, chars "beta1",
          Option.some (chars "xenial"), Option.some (chars "amd64")⟩ :=
  claim_C1_amended ⟨Field.num 1, Field.num 2, Field.num 3⟩
    (Option.some (chars "beta1")) (Option.some (chars "xenial"))
    (Option.some (chars "amd64"))
    ⟨⟨Field.num 1, Field.num 2, Field.num 3⟩, chars "beta1",
      Option.some (chars "xenial"), Option.some (chars "amd64")⟩
    rfl rfl (by decide) (by decide)

/-! ## Helper lemmas toward claim C8 -/

theorem wsOnly_not_mem_dot {w : Str} (hw : wsOnly w = true) :
    ('.' : Char) ∉ w := by
  intro hm
  exact absurd (wsOnly_mem hw _ hm) (by decide)

theorem parse_number_unset_inv {t : Str}
    (h : _parse_number (Raw.str t) = Except.ok Field.unset) : t = [] := by
  rcases parse_number_str_ok h with ⟨h1, _⟩ | ⟨_, h2⟩ | ⟨n, _, h2⟩
  · exact h1
  · exact absurd h2 (by simp)
  · exact absurd h2 (by simp)

theorem parse_number_wild_inv {t : Str}
    (h : _parse_number (Raw.str t) = Except.ok Field.wild) : wildTok t = true := by
  rcases parse_number_str_ok h with ⟨_, h2⟩ | ⟨h1, _⟩ | ⟨n, _, h2⟩
  · exact absurd h2 (by simp)
  · rcases h1 with rfl | rfl | rfl <;> simp [wildTok]
  · exact absurd h2 (by simp)

theorem pyInt_some_no_dot {m : Str} {n : Int}
    (h : pyInt m = some n) : ('.' : Char) ∉ m := by
  intro hm
  have hm' : ('.' : Char) ∈ pyStrip m := mem_pyStrip hm (by decide)
  unfold pyInt at h
  cases hst : pyStrip m with
  | nil => rw [hst] at hm'; simp at hm'
  | cons c rest =>
    rw [hst] at h hm'
    rw [pyIntCore_cons] at h
    by_cases hc : c = '+'
    · rw [if_pos hc] at h
      rcases Option.map_eq_some'.mp h with ⟨k, hv, _⟩
      rcases nonemptyDigitsVal_some hv with ⟨_, hd⟩
      rcases List.mem_cons.mp hm' with hdot | hdot
      · rw [hc] at hdot
        exact absurd hdot.symm (by decide)
      · have := digitsValAux_some_mem hd hdot
        rw [show charDigit '.' = none by decide] at this
        simp at this
    · rw [if_neg hc] at h
      by_cases hc2 : c = '-'
      · rw [if_pos hc2] at h
        rcases Option.map_eq_some'.mp h with ⟨k, hv, _⟩
        rcases nonemptyDigitsVal_some hv with ⟨_, hd⟩
        rcases List.mem_cons.mp hm' with hdot | hdot
        · rw [hc2] at hdot
          exact absurd hdot.symm (by decide)
        · have := digitsValAux_some_mem hd hdot
          rw [show charDigit '.' = none by decide] at this
          simp at this
      · rw [if_neg hc2] at h
        rcases Option.map_eq_some'.mp h with ⟨k, hv, _⟩
        rcases nonemptyDigitsVal_some hv with ⟨_, hd⟩
        have := digitsValAux_some_mem hd hm'
        rw [show charDigit '.' = none by decide] at this
        simp at this

theorem parse_number_dot {m : Str} (hm : ('.' : Char) ∈ m) :
    _parse_number (Raw.str m)
      = Except.error "invalid literal for int() with base 10" := by
  have hne : m ≠ [] := by
    intro rfl_h
    rw [rfl_h] at hm
    simp at hm
  have hnw : ¬ (m = chars "x" ∨ m = chars "X" ∨ m = chars "*") := by
    rintro (rfl | rfl | rfl) <;> exact absurd hm (by decide)
  cases hp : pyInt m with
  | none => exact parse_number_pyInt_none hne hnw hp
  | some n => exact absurd hm (pyInt_some_no_dot hp)

theorem mkRaw_micro_err {a b : Raw} {t : Str} {e : Err} {v : VersionNumber}
    (h : _parse_number (Raw.str t) = Except.error e) :
    VersionNumber.mkRaw a b (Raw.str t) ≠ Except.ok v := by
  intro hok
  rcases mkRaw_ok_iff.mp hok with ⟨_, _, h3, _⟩
  rw [h] at h3
  exact absurd h3 (by simp)

/-- Moving the whitespace pads off both tokens of a dot-free tail. -/
theorem mkRaw_pad2_iff {w1 w2 maj rest : Str} {v : VersionNumber}
    (hw1 : wsOnly w1 = true) (hw2 : wsOnly w2 = true)
    (hcond : w2 = [] ∨ wildTok rest = false) :
    (VersionNumber.mkRaw (Raw.str (w1 ++ maj)) (Raw.str (rest ++ w2)) (Raw.str [])
        = Except.ok v)
      ↔ VersionNumber.mkRaw (Raw.str maj) (Raw.str rest) (Raw.str [])
        = Except.ok v := by
  constructor
  · intro h
    rcases mkRaw_ok_iff.mp h with ⟨h1, h2, h3, h4⟩
    exact mkRaw_ok_iff.mpr ⟨parse_number_unpad_left hw1 h1,
      parse_number_unpad_right hw2 h2, h3, h4⟩
  · intro h
    rcases mkRaw_ok_iff.mp h with ⟨h1, h2, h3, h4⟩
    rcases (validate_ok_iff v).mp h4 with ⟨_, hmint, _, hminint, _, _⟩
    rcases isNonnegInt_elim hmint with ⟨a, hmaj, ha0⟩
    have h1' : _parse_number (Raw.str (w1 ++ maj)) = Except.ok v.major := by
      rw [hmaj] at h1 ⊢
      exact parse_number_pad_left hw1 h1
    have h2' : _parse_number (Raw.str (rest ++ w2)) = Except.ok v.minor := by
      by_cases hwild : v.minor = Field.wild
      · have hrw : wildTok rest = true := by
          rw [hwild] at h2
          exact parse_number_wild_inv h2
        rcases hcond with rfl | hfalse
        · rw [List.append_nil]
          exact h2
        · rw [hrw] at hfalse
          exact absurd hfalse (by simp)
      · rcases isNonnegInt_elim (hminint hwild) with ⟨b, hmin, hb0⟩
        rw [hmin] at h2 ⊢
        exact parse_number_pad_right hw2 h2
    exact mkRaw_ok_iff.mpr ⟨h1', h2', h3, h4⟩

/-- Moving the whitespace pads off the outer tokens of a three-token
split. -/
theorem mkRaw_pad3_iff {w1 w2 maj minor micro : Str} {v : VersionNumber}
    (hw1 : wsOnly w1 = true) (hw2 : wsOnly w2 = true) (hne : micro ≠ [])
    (hcond : w2 = [] ∨ wildTok micro = false) :
    (VersionNumber.mkRaw (Raw.str (w1 ++ maj)) (Raw.str minor)
        (Raw.str (micro ++ w2)) = Except.ok v)
      ↔ VersionNumber.mkRaw (Raw.str maj) (Raw.str minor) (Raw.str micro)
        = Except.ok v := by
  constructor
  · intro h
    rcases mkRaw_ok_iff.mp h with ⟨h1, h2, h3, h4⟩
    exact mkRaw_ok_iff.mpr ⟨parse_number_unpad_left hw1 h1, h2,
      parse_number_unpad_right hw2 h3, h4⟩
  · intro h
    rcases mkRaw_ok_iff.mp h with ⟨h1, h2, h3, h4⟩
    rcases (validate_ok_iff v).mp h4 with ⟨_, hmint, _, _, _, _⟩
    rcases isNonnegInt_elim hmint with ⟨a, hmaj, ha0⟩
    have h1' : _parse_number (Raw.str (w1 ++ maj)) = Except.ok v.major := by
      rw [hmaj] at h1 ⊢
      exact parse_number_pad_left hw1 h1
    have h3' : _parse_number (Raw.str (micro ++ w2)) = Except.ok v.micro := by
      rcases parse_number_str_ok h3 with ⟨hm1, _⟩ | ⟨hm1, hm2⟩ | ⟨n, _, hm2⟩
      · exact absurd hm1 hne
      · have hrw : wildTok micro = true := by
          rcases hm1 with rfl | rfl | rfl <;> simp [wildTok]
        rcases hcond with rfl | hfalse
        · rw [List.append_nil]
          exact h3
        · rw [hrw] at hfalse
          exact absurd hfalse (by simp)
      · rw [hm2] at h3 ⊢
        exact parse_number_pad_right hw2 h3
    exact mkRaw_ok_iff.mpr ⟨h1', h2, h3', h4⟩

/-! ## Claim C8 -/

/-- Claim C8 (amended): `VersionNumber.parse` tolerates surrounding
whitespace — leading whitespace always, trailing whitespace provided the
last dot-separated token of the string is not a bare wildcard marker —
in the sense that the padded and unpadded strings either both fail or
both succeed with the same value. -/
theorem claim_C8_amended (s w1 w2 : Str) (v : VersionNumber)
    (hw1 : wsOnly w1 = true) (hw2 : wsOnly w2 = true)
    (hcond : w2 = [] ∨ wildTok (lastToken s) = false) :
    (VersionNumber.parse (w1 ++ s ++ w2) = Except.ok v
      ↔ VersionNumber.parse s = Except.ok v) := by
  have hw1d : ('.' : Char) ∉ w1 := wsOnly_not_mem_dot hw1
  have hw2d : ('.' : Char) ∉ w2 := wsOnly_not_mem_dot hw2
  rcases hp : partitionList '.' s with ⟨maj, d1, rest⟩
  cases d1 with
  | false =>
    rcases partition_not_found hp with ⟨hmaj, hrest, hnod⟩
    have hnopad : ('.' : Char) ∉ w1 ++ s ++ w2 := by
      intro hm
      rcases List.mem_append.mp hm with hm | hm
      · rcases List.mem_append.mp hm with hm | hm
        · exact hw1d hm
        · exact hnod hm
      · exact hw2d hm
    rw [vn_parse_tokens (partition_not_mem hnod) (partitionList_nil '.') (by simp),
      vn_parse_tokens (partition_not_mem hnopad) (partitionList_nil '.') (by simp)]
    constructor
    · intro h
      exact absurd h (mkRaw_minor_nil _ _ _)
    · intro h
      exact absurd h (mkRaw_minor_nil _ _ _)
  | true =>
    rcases partition_found hp with ⟨hs_eq, hmajd⟩
    subst hs_eq
    have hpadd_dot : ('.' : Char) ∉ w1 ++ maj := by
      intro hm
      rcases List.mem_append.mp hm with hm | hm
      · exact hw1d hm
      · exact hmajd hm
    have hre : w1 ++ (maj ++ '.' :: rest) ++ w2
        = (w1 ++ maj) ++ '.' :: (rest ++ w2) := by simp
    rcases hp2 : partitionList '.' rest with ⟨minor, d2, micro⟩
    cases d2 with
    | false =>
      rcases partition_not_found hp2 with ⟨hmin_eq, hmic_eq, hrd⟩
      subst hmin_eq
      subst hmic_eq
      have hlast : lastToken (maj ++ '.' :: minor) = minor := lastToken_append maj hrd
      rw [hlast] at hcond
      have hnp2 : ('.' : Char) ∉ minor ++ w2 := by
        intro hm
        rcases List.mem_append.mp hm with hm | hm
        · exact hrd hm
        · exact hw2d hm
      have hpp : VersionNumber.parse (w1 ++ (maj ++ '.' :: minor) ++ w2)
          = VersionNumber.mkRaw (Raw.str (w1 ++ maj)) (Raw.str (minor ++ w2))
              (Raw.str []) := by
        rw [hre]
        exact vn_parse_tokens (partition_split _ hpadd_dot)
          (partition_not_mem hnp2) (by simp)
      rw [vn_parse_tokens hp hp2 (by simp), hpp]
      exact mkRaw_pad2_iff hw1 hw2 hcond
    | true =>
      rcases partition_found hp2 with ⟨hrest_eq, hmind⟩
      subst hrest_eq
      by_cases hmic_nil : micro = []
      · subst hmic_nil
        by_cases hw2nil : w2 = []
        · subst hw2nil
          have hre5 : w1 ++ (maj ++ '.' :: (minor ++ '.' :: [])) ++ ([] : Str)
              = (w1 ++ maj) ++ '.' :: (minor ++ '.' :: []) := by simp
          rw [vn_parse_missing_micro hp hp2]
          rw [hre5, vn_parse_missing_micro (partition_split _ hpadd_dot) hp2]
        · have hre2 : (minor ++ '.' :: ([] : Str)) ++ w2 = minor ++ '.' :: w2 := by
            simp
          have h2p : partitionList '.' ((minor ++ '.' :: ([] : Str)) ++ w2)
              = (minor, true, w2) := by
            rw [hre2]
            exact partition_split _ hmind
          have hpp : VersionNumber.parse (w1 ++ (maj ++ '.' :: (minor ++ '.' :: [])) ++ w2)
              = VersionNumber.mkRaw (Raw.str (w1 ++ maj)) (Raw.str minor)
                  (Raw.str w2) := by
            rw [hre]
            exact vn_parse_tokens (partition_split _ hpadd_dot) h2p
              (by simp [hw2nil])
          rw [vn_parse_missing_micro hp hp2, hpp]
          constructor
          · intro h
            exact absurd h (mkRaw_micro_err (parse_number_ws hw2nil hw2))
          · intro h
            exact absurd h (by simp)
      · have hre3 : (minor ++ '.' :: micro) ++ w2 = minor ++ '.' :: (micro ++ w2) := by
          simp
        have h2p : partitionList '.' ((minor ++ '.' :: micro) ++ w2)
            = (minor, true, micro ++ w2) := by
          rw [hre3]
          exact partition_split _ hmind
        have hps : VersionNumber.parse (maj ++ '.' :: (minor ++ '.' :: micro))
            = VersionNumber.mkRaw (Raw.str maj) (Raw.str minor) (Raw.str micro) :=
          vn_parse_tokens hp hp2 (by simp [hmic_nil])
        have hpp : VersionNumber.parse (w1 ++ (maj ++ '.' :: (minor ++ '.' :: micro)) ++ w2)
            = VersionNumber.mkRaw (Raw.str (w1 ++ maj)) (Raw.str minor)
                (Raw.str (micro ++ w2)) := by
          rw [hre]
          exact vn_parse_tokens (partition_split _ hpadd_dot) h2p
            (by simp [hmic_nil])
        rw [hps, hpp]
        by_cases hdotmic : ('.' : Char) ∈ micro
        · constructor
          · intro h
            exact absurd h (mkRaw_micro_err (parse_number_dot
              (List.mem_append.mpr (Or.inl hdotmic))))
          · intro h
            exact absurd h (mkRaw_micro_err (parse_number_dot hdotmic))
        · have hlast : lastToken (maj ++ '.' :: (minor ++ '.' :: micro)) = micro := by
            have hre4 : maj ++ '.' :: (minor ++ '.' :: micro)
                = (maj ++ '.' :: minor) ++ '.' :: micro := by simp
            rw [hre4]
            exact lastToken_append _ hdotmic
          rw [hlast] at hcond
          exact mkRaw_pad3_iff hw1 hw2 hmic_nil hcond

/-- Witness for claim C8: a space on each side of `"1.2"` leaves the
parse unchanged. -/
theorem claim_C8_witness :
    VersionNumber.parse (chars " " ++ chars "1.2" ++ chars " ")
      = Except.ok ⟨Field.num 1, Field.num 2, Field.unset⟩ :=
  (claim_C8_amended (chars "1.2") (chars " ") (chars " ")
    ⟨Field.num 1, Field.num 2, Field.unset⟩ (by decide) (by decide)
    (Or.inr (by decide))).mpr rfl

end Txjuju
